import Mathlib

/-!
Verification development for the VIGIL-ReID data-preparation and training
scripts.  The Python sources under `scripts/` and `train.py` are shallowly
embedded as executable Lean functions:

* filesystem state is a `List String` / `Finset String` of entry names;
  `os.rename` is modelled with Windows semantics (renaming onto an existing
  path fails and leaves the filesystem unchanged), matching the platform the
  scripts are written for (drive-letter paths);
* CPython's Mersenne-Twister stream is abstracted as an arbitrary step
  function `Nat → Nat × Nat` threading an explicit generator state, so that
  theorems quantifying over it cover every seed; `random.shuffle` is the
  exact Fisher-Yates loop CPython runs on top of the stream;
* the float ratio arithmetic of the dataset splitter is embedded as exact
  rational arithmetic on numerator/denominator pairs of naturals
  (`int(total * ratio)` becomes `total * num / den`), which agrees with the
  float code whenever the configured ratios are exactly representable;
* Python string operations (`str.split(sep, maxsplit)`, `str.startswith`,
  `Path.suffix`, `str.upper`, decimal rendering of `int`) are re-implemented
  on the character lists underlying `String`.
-/

/-- Python `str.isdigit` for ASCII folder names: nonempty and all digits. -/
def isDigitName (s : String) : Bool :=
  !s.data.isEmpty && s.data.all Char.isDigit

/-- Numeric value of a digit string, embedding Python `int(name)` for names
that passed `isdigit`. -/
def strToNat (s : String) : Nat :=
  s.data.foldl (fun acc c => acc * 10 + (c.toNat - 48)) 0

/-- Decimal digit character for a value below ten. -/
def digitCharOf (d : Nat) : Char :=
  Char.ofNat (48 + d)

/-- Little-endian decimal digits of a natural number, with explicit fuel so
that the recursion is structural (fuel `n + 1` always suffices). -/
def decDigitsGo : Nat → Nat → List Char
  | 0, _ => []
  | fuel + 1, n =>
    if n < 10 then [digitCharOf n]
    else digitCharOf (n % 10) :: decDigitsGo fuel (n / 10)

/-- Decimal rendering of a natural number, embedding Python `str(n)` /
f-string interpolation of a nonnegative `int`. -/
def natToDecimal (n : Nat) : String :=
  ⟨(decDigitsGo (n + 1) n).reverse⟩

/-- Python code-point comparison of strings (lexicographic on characters),
used by `sorted(...)` on file and folder names. -/
def charListLtb : List Char → List Char → Bool
  | [], [] => false
  | [], _ :: _ => true
  | _ :: _, [] => false
  | a :: as, b :: bs =>
    if a.val < b.val then true
    else if b.val < a.val then false
    else charListLtb as bs

/-- Not-greater comparison on strings, the comparator under which a stable
sort reproduces Python's `sorted` on strings. -/
def strLeb (a b : String) : Bool :=
  !charListLtb b.data a.data

/-- Insert into a sorted list, keeping an element before later equal-keyed
ones (stability). -/
def insertSorted (le : α → α → Bool) (x : α) : List α → List α
  | [] => [x]
  | y :: ys => if le x y then x :: y :: ys else y :: insertSorted le x ys

/-- Stable insertion sort; on any comparator that is a total preorder this
computes the same list as Python's stable `sorted`. -/
def insSortBy (le : α → α → Bool) : List α → List α
  | [] => []
  | x :: xs => insertSorted le x (insSortBy le xs)

/-- Python `pathlib.Path.suffix`: the final `.`-started extension, empty when
the name has no dot, ends with its only dot, or starts with its only dot. -/
def pySuffix (s : String) : String :=
  let rev := s.data.reverse
  let after := rev.takeWhile (fun c => c ≠ '.')
  let rest := rev.dropWhile (fun c => c ≠ '.')
  if rest.isEmpty then ""
  else if after.isEmpty then ""
  else if rest.tail.isEmpty then ""
  else ⟨'.' :: after.reverse⟩

/-- Python `str.upper` for the ASCII names handled by the scripts. -/
def upperStr (s : String) : String :=
  ⟨s.data.map Char.toUpper⟩

/-- The scripts' image-file test: `f.suffix.upper() in ['.JPG', '.JPEG', '.PNG']`. -/
def isRecognizedImage (s : String) : Bool :=
  [".JPG", ".JPEG", ".PNG"].contains (upperStr (pySuffix s))

/-- Python `str.startswith`. -/
def pyStartsWith (s pre : String) : Bool :=
  pre.data.isPrefixOf s.data

/-- Python `os.path.basename` for forward-slash relative paths as they appear
in the metadata table. -/
def pyBasename (p : String) : String :=
  ⟨(p.data.reverse.takeWhile (fun c => c ≠ '/')).reverse⟩

/-- Splitter for `name.split('_', maxsplit)`: the first argument counts the
splits still allowed. -/
def splitUnderscoreAux : Nat → List Char → List (List Char)
  | 0, cs => [cs]
  | k + 1, cs =>
    let pre := cs.takeWhile (fun c => c ≠ '_')
    match cs.dropWhile (fun c => c ≠ '_') with
    | [] => [cs]
    | _ :: rest => pre :: splitUnderscoreAux k rest

/-- Python `name.split('_', 3)` as used by the rollback script. -/
def pySplitU3 (s : String) : List String :=
  (splitUnderscoreAux 3 s.data).map (fun cs => ⟨cs⟩)

/-- A deterministic stand-in generator step: used to instantiate theorems that
quantify over the abstracted Mersenne-Twister stream at a concrete stream. -/
def constStep : Nat → Nat × Nat := fun s => (0, s)

/-- Swap two positions of a list (out-of-range indices leave it unchanged),
the elementary step of CPython's `random.shuffle`. -/
def swapL (l : List α) (i j : Nat) : List α :=
  match l.get? i, l.get? j with
  | some a, some b => (l.set i b).set j a
  | _, _ => l

/-- Fisher-Yates loop of CPython's `random.shuffle`: for
`i = n-1, ..., 1` draw `j = randbelow(i+1)` from the stream and swap
positions `i` and `j`.  The first argument is the current index `i`. -/
def fyAux (step : Nat → Nat × Nat) : Nat → List α → Nat → List α × Nat
  | 0, l, s => (l, s)
  | i + 1, l, s =>
    let r := step s
    fyAux step i (swapL l (i + 1) (r.1 % (i + 2))) r.2

/-- Python `random.shuffle(l)` on the abstracted generator stream. -/
def pyShuffle (step : Nat → Nat × Nat) (l : List α) (s : Nat) : List α × Nat :=
  fyAux step (l.length - 1) l s

theorem cons_set_perm {t : List α} {k : Nat} {b : α} (a : α)
    (hb : t.get? k = some b) : List.Perm (b :: t.set k a) (a :: t) := by
  induction t generalizing k with
  | nil => simp at hb
  | cons y s ih =>
    cases k with
    | zero =>
      simp only [List.get?] at hb
      cases hb
      exact List.Perm.swap _ _ _
    | succ k =>
      simp only [List.get?] at hb
      have h1 : List.Perm (b :: y :: s.set k a) (y :: b :: s.set k a) :=
        List.Perm.swap _ _ _
      have h2 : List.Perm (y :: b :: s.set k a) (y :: a :: s) :=
        List.Perm.cons _ (ih hb)
      have h3 : List.Perm (y :: a :: s) (a :: y :: s) := List.Perm.swap _ _ _
      simpa using (h1.trans h2).trans h3

theorem set_set_get_perm {l : List α} {i j : Nat} {a b : α}
    (ha : l.get? i = some a) (hb : l.get? j = some b) :
    List.Perm ((l.set i b).set j a) l := by
  induction l generalizing i j with
  | nil => simp at ha
  | cons x t ih =>
    cases i with
    | zero =>
      simp only [List.get?] at ha
      cases ha
      cases j with
      | zero =>
        simp only [List.get?] at hb
        cases hb
        simp
      | succ j =>
        simp only [List.get?] at hb
        simpa [List.set] using cons_set_perm a hb
    | succ i =>
      simp only [List.get?] at ha
      cases j with
      | zero =>
        simp only [List.get?] at hb
        cases hb
        simpa [List.set] using cons_set_perm b ha
      | succ j =>
        simpa [List.set] using List.Perm.cons x (ih ha hb)

theorem swapL_perm (l : List α) (i j : Nat) : List.Perm (swapL l i j) l := by
  unfold swapL
  cases hi : l.get? i with
  | none => exact List.Perm.refl l
  | some a =>
    cases hj : l.get? j with
    | none => exact List.Perm.refl l
    | some b => exact set_set_get_perm hi hj

theorem fyAux_perm (step : Nat → Nat × Nat) :
    ∀ (i : Nat) (l : List α) (s : Nat), List.Perm (fyAux step i l s).1 l := by
  intro i
  induction i with
  | zero => intro l s; exact List.Perm.refl l
  | succ k ih =>
    intro l s
    exact (ih _ _).trans (swapL_perm _ _ _)

theorem pyShuffle_perm (step : Nat → Nat × Nat) (l : List α) (s : Nat) :
    List.Perm (pyShuffle step l s).1 l :=
  fyAux_perm step _ l s

theorem insertSorted_perm (le : α → α → Bool) (x : α) (l : List α) :
    List.Perm (insertSorted le x l) (x :: l) := by
  induction l with
  | nil => simp [insertSorted]
  | cons y ys ih =>
    by_cases h : le x y
    · simp [insertSorted, h]
    · simp only [insertSorted, h]
      simp only [Bool.false_eq_true, if_false]
      exact (List.Perm.cons y ih).trans (List.Perm.swap x y ys)

theorem insSortBy_perm (le : α → α → Bool) (l : List α) :
    List.Perm (insSortBy le l) l := by
  induction l with
  | nil => simp [insSortBy]
  | cons x xs ih =>
    exact (insertSorted_perm le x (insSortBy le xs)).trans (List.Perm.cons x ih)

/-- An exact ratio given as numerator/denominator, embedding the splitter's
float ratio parameters for exactly-representable values. -/
abbrev RatPair := Nat × Nat

/-- Python `int(total * ratio)` for a nonnegative exact ratio: floor of the
product, computed as natural division. -/
def ratFloorMul (total : Nat) (r : RatPair) : Nat :=
  total * r.1 / r.2

/-- One identity folder of the splitter: its directory name and the sorted
list of recognized image files inside it (the script's `info` dict). -/
structure IdInfo where
  name : String
  images : List String
deriving DecidableEq, Repr

/-- The `int(folder.name)` identity of a folder. -/
def IdInfo.id (f : IdInfo) : Nat := strToNat f.name

/-- The `image_count` of a folder. -/
def IdInfo.count (f : IdInfo) : Nat := f.images.length

/-- Folder enumeration of `split_dataset_by_image_count`: keep sub-directories
whose name `isdigit()`, sort them by `int(name)` (stably, as Python's `sorted`
does), and inside each keep the recognized image files sorted by name. -/
def mkInfos (raw : List (String × List String)) : List IdInfo :=
  (insSortBy (fun a b => strToNat a.1 ≤ strToNat b.1)
      (raw.filter (fun p => isDigitName p.1))).map
    (fun p => { name := p.1, images := insSortBy strLeb (p.2.filter isRecognizedImage) })

/-- The greedy fill loop of the splitter: walk the shuffled multi-image
identities, appending to `train_ids` while the running train image count is
below target, otherwise to `remaining_ids`.  Returns the identities added to
train, the remaining identities, and the final running count. -/
def greedyFill (target : Nat) : List IdInfo → Nat → List IdInfo × List IdInfo × Nat
  | [], c => ([], [], c)
  | x :: xs, c =>
    if c < target then
      let r := greedyFill target xs (c + x.count)
      (x :: r.1, r.2.1, r.2.2)
    else
      let r := greedyFill target xs c
      (r.1, x :: r.2.1, r.2.2)

/-- The overshoot-correction step of the splitter (lines 115-125): when the
train image count exceeds target and more than one multi-image identity was
added, pop the last-added identity back to the head of `remaining_ids` exactly
when its image count exceeds 1 and the overshoot `count - target` exceeds half
of that image count (`overshoot > last_id['count'] * 0.5`). -/
def adjustOvershoot (numSingles target : Nat) (trainIds remainingIds : List IdInfo)
    (cnt : Nat) : List IdInfo × List IdInfo × Nat :=
  if cnt > target ∧ trainIds.length > numSingles + 1 then
    match trainIds.getLast? with
    | some last =>
      if 1 < last.count then
        if last.count < 2 * (cnt - target) then
          (trainIds.dropLast, last :: remainingIds, cnt - last.count)
        else (trainIds, remainingIds, cnt)
      else (trainIds, remainingIds, cnt)
    | none => (trainIds, remainingIds, cnt)
  else (trainIds, remainingIds, cnt)

/-- Per-identity query allocation (`num_query`) of the splitter:
`max(1, int(total * query_test_ratio))`, then reduced to `total - 1` when the
identity has at least two images and the allocation would consume all of
them. -/
def numQuery (qtr : RatPair) (total : Nat) : Nat :=
  let nq := max 1 (ratFloorMul total qtr)
  if 2 ≤ total ∧ total ≤ nq then total - 1 else nq

/-- The query/gallery loop of the splitter: for each remaining identity,
record its id in the query and gallery identity sets, shuffle its images on
the generator stream, give the first `num_query` of them to query and the rest
to gallery.  Copies are recorded as (folder name, image name) pairs in the
order the script copies them. -/
def processRemaining (step : Nat → Nat × Nat) (qtr : RatPair) :
    List IdInfo → Nat →
      List (String × String) × List (String × String) × Finset Nat × Finset Nat × Nat
  | [], s => ([], [], ∅, ∅, s)
  | info :: rest, s =>
    let sh := pyShuffle step info.images s
    let nq := numQuery qtr sh.1.length
    let q := (sh.1.take nq).map (fun im => (info.name, im))
    let g := (sh.1.drop nq).map (fun im => (info.name, im))
    let r := processRemaining step qtr rest sh.2
    (q ++ r.1, g ++ r.2.1, insert info.id r.2.2.1, insert info.id r.2.2.2.1, r.2.2.2.2)

/-- Full record of one run of `split_dataset_by_image_count`, keeping the
intermediate state (before and after the overshoot correction) alongside the
final assignment of images to the three output directories. -/
structure SplitOutcome where
  infos : List IdInfo
  totalImages : Nat
  targetTrain : Nat
  singles : List IdInfo
  multis : List IdInfo
  shuffled : List IdInfo
  preTrain : List IdInfo
  preRemaining : List IdInfo
  preCount : Nat
  trainIds : List IdInfo
  remainingIds : List IdInfo
  trainCount : Nat
  trainCopies : List (String × String)
  queryCopies : List (String × String)
  galleryCopies : List (String × String)
  queryIds : Finset Nat
  galleryIds : Finset Nat
deriving DecidableEq

/-- Singleton identities of the splitter (`image_count == 1`). -/
def splitterSingles (raw : List (String × List String)) : List IdInfo :=
  (mkInfos raw).filter (fun f => f.count = 1)

/-- Multi-image identities of the splitter (everything not a singleton). -/
def splitterMultis (raw : List (String × List String)) : List IdInfo :=
  (mkInfos raw).filter (fun f => !(f.count = 1 : Bool))

/-- The splitter's train image target `int(total_images * train_ratio)`. -/
def splitterTarget (raw : List (String × List String)) (ratioTrain : RatPair) : Nat :=
  ratFloorMul (((mkInfos raw).map IdInfo.count).sum) ratioTrain

/-- The one seeded shuffle of the multi-image identities. -/
def splitterShuffle (step : Nat → Nat × Nat) (seed : Nat)
    (raw : List (String × List String)) : List IdInfo × Nat :=
  pyShuffle step (splitterMultis raw) seed

/-- The greedy train fill, starting from the singleton image count. -/
def splitterGreedy (step : Nat → Nat × Nat) (seed : Nat)
    (raw : List (String × List String)) (ratioTrain : RatPair) :
    List IdInfo × List IdInfo × Nat :=
  greedyFill (splitterTarget raw ratioTrain) (splitterShuffle step seed raw).1
    (((splitterSingles raw).map IdInfo.count).sum)

/-- The `train_ids` list right after the greedy fill: singletons first, then
the greedily-added multi-image identities. -/
def splitterPreTrain (step : Nat → Nat × Nat) (seed : Nat)
    (raw : List (String × List String)) (ratioTrain : RatPair) : List IdInfo :=
  splitterSingles raw ++ (splitterGreedy step seed raw ratioTrain).1

/-- The state after the overshoot correction. -/
def splitterAdj (step : Nat → Nat × Nat) (seed : Nat)
    (raw : List (String × List String)) (ratioTrain : RatPair) :
    List IdInfo × List IdInfo × Nat :=
  adjustOvershoot (splitterSingles raw).length (splitterTarget raw ratioTrain)
    (splitterPreTrain step seed raw ratioTrain)
    (splitterGreedy step seed raw ratioTrain).2.1
    (splitterGreedy step seed raw ratioTrain).2.2

/-- The relative query share `query_ratio / (query_ratio + gallery_ratio)` as
an exact ratio pair. -/
def splitterQtr (ratioQuery ratioGallery : RatPair) : RatPair :=
  (ratioQuery.1 * ratioGallery.2,
   ratioQuery.1 * ratioGallery.2 + ratioGallery.1 * ratioQuery.2)

/-- The query/gallery processing pass over the remaining identities, threading
the generator state left by the identity shuffle. -/
def splitterProcess (step : Nat → Nat × Nat) (seed : Nat)
    (raw : List (String × List String))
    (ratioTrain ratioQuery ratioGallery : RatPair) :
    List (String × String) × List (String × String) × Finset Nat × Finset Nat × Nat :=
  processRemaining step (splitterQtr ratioQuery ratioGallery)
    (splitterAdj step seed raw ratioTrain).2.1 (splitterShuffle step seed raw).2

/-- The dataset splitter `split_dataset_by_image_count`, as a pure function of
the directory listing, the three ratio parameters and the seeded generator
stream.  Identities with exactly one image go straight to train; multi-image
identities are shuffled once and filled greedily; the overshoot correction may
move the last-added identity back; remaining identities are split per-image
between query and gallery. -/
def splitDataset (step : Nat → Nat × Nat) (seed : Nat)
    (raw : List (String × List String))
    (ratioTrain ratioQuery ratioGallery : RatPair) : SplitOutcome :=
  { infos := mkInfos raw
    totalImages := ((mkInfos raw).map IdInfo.count).sum
    targetTrain := splitterTarget raw ratioTrain
    singles := splitterSingles raw
    multis := splitterMultis raw
    shuffled := (splitterShuffle step seed raw).1
    preTrain := splitterPreTrain step seed raw ratioTrain
    preRemaining := (splitterGreedy step seed raw ratioTrain).2.1
    preCount := (splitterGreedy step seed raw ratioTrain).2.2
    trainIds := (splitterAdj step seed raw ratioTrain).1
    remainingIds := (splitterAdj step seed raw ratioTrain).2.1
    trainCount := (splitterAdj step seed raw ratioTrain).2.2
    trainCopies :=
      ((splitterAdj step seed raw ratioTrain).1.map
        (fun f => f.images.map (fun im => (f.name, im)))).flatten
    queryCopies := (splitterProcess step seed raw ratioTrain ratioQuery ratioGallery).1
    galleryCopies := (splitterProcess step seed raw ratioTrain ratioQuery ratioGallery).2.1
    queryIds := (splitterProcess step seed raw ratioTrain ratioQuery ratioGallery).2.2.1
    galleryIds := (splitterProcess step seed raw ratioTrain ratioQuery ratioGallery).2.2.2.1 }

/-- The train identity set the script accumulates in `stats['train']['ids']`. -/
def statsTrainIds (trainIds : List IdInfo) : Finset Nat :=
  trainIds.foldl (fun s f => insert f.id s) ∅

theorem greedyFill_perm (target : Nat) :
    ∀ (l : List IdInfo) (c : Nat),
      List.Perm ((greedyFill target l c).1 ++ (greedyFill target l c).2.1) l := by
  intro l
  induction l with
  | nil => intro c; simp [greedyFill]
  | cons x xs ih =>
    intro c
    by_cases h : c < target
    · simpa [greedyFill, h] using List.Perm.cons x (ih (c + x.count))
    · simp only [greedyFill, if_neg h]
      exact List.perm_middle.trans (List.Perm.cons x (ih c))

theorem adjustOvershoot_perm (ns t : Nat) (tr rem : List IdInfo) (cnt : Nat) :
    List.Perm ((adjustOvershoot ns t tr rem cnt).1 ++ (adjustOvershoot ns t tr rem cnt).2.1)
      (tr ++ rem) := by
  have hpop : ∀ (last : IdInfo), tr.getLast? = some last →
      List.Perm (tr.dropLast ++ last :: rem) (tr ++ rem) := by
    intro last hl
    have hne : tr ≠ [] := by
      intro he
      rw [he] at hl
      simp at hl
    have hdl : tr.dropLast ++ [tr.getLast hne] = tr := List.dropLast_append_getLast hne
    have hlast : tr.getLast hne = last := by
      have h := List.getLast?_eq_getLast tr hne
      rw [hl] at h
      exact (Option.some.inj h).symm
    have heq : tr.dropLast ++ last :: rem = tr ++ rem := by
      rw [← hdl, hlast]
      simp
    rw [heq]
  unfold adjustOvershoot
  split
  · split
    · rename_i last hl
      split
      · split
        · exact hpop last hl
        · exact List.Perm.refl _
      · exact List.Perm.refl _
    · exact List.Perm.refl _
  · exact List.Perm.refl _

theorem splitterAdj_partition_perm (step : Nat → Nat × Nat) (seed : Nat)
    (raw : List (String × List String)) (rt : RatPair) :
    List.Perm ((splitterAdj step seed raw rt).1 ++ (splitterAdj step seed raw rt).2.1)
      (mkInfos raw) := by
  have h1 := adjustOvershoot_perm (splitterSingles raw).length (splitterTarget raw rt)
    (splitterPreTrain step seed raw rt) (splitterGreedy step seed raw rt).2.1
    (splitterGreedy step seed raw rt).2.2
  have h2 : splitterPreTrain step seed raw rt ++ (splitterGreedy step seed raw rt).2.1 =
      splitterSingles raw ++
        ((splitterGreedy step seed raw rt).1 ++ (splitterGreedy step seed raw rt).2.1) := by
    simp [splitterPreTrain]
  have h3 : List.Perm ((splitterGreedy step seed raw rt).1 ++ (splitterGreedy step seed raw rt).2.1)
      (splitterShuffle step seed raw).1 :=
    greedyFill_perm _ _ _
  have h4 : List.Perm (splitterShuffle step seed raw).1 (splitterMultis raw) :=
    pyShuffle_perm step (splitterMultis raw) seed
  have h5 : List.Perm (splitterSingles raw ++ splitterMultis raw) (mkInfos raw) := by
    simpa [splitterSingles, splitterMultis] using
      List.filter_append_perm (fun f => f.count = 1) (mkInfos raw)
  have : List.Perm ((splitterAdj step seed raw rt).1 ++ (splitterAdj step seed raw rt).2.1)
      (splitterSingles raw ++
        ((splitterGreedy step seed raw rt).1 ++ (splitterGreedy step seed raw rt).2.1)) := by
    rw [← h2]
    exact h1
  exact this.trans ((List.Perm.append_left _ (h3.trans h4)).trans h5)

theorem foldl_insert_ids (l : List IdInfo) :
    ∀ s : Finset Nat, l.foldl (fun s f => insert f.id s) s = s ∪ (l.map IdInfo.id).toFinset := by
  induction l with
  | nil => intro s; simp
  | cons x xs ih =>
    intro s
    simp only [List.foldl, List.map, List.toFinset_cons, ih]
    rw [Finset.union_insert, Finset.insert_union]

theorem statsTrainIds_eq (l : List IdInfo) :
    statsTrainIds l = (l.map IdInfo.id).toFinset := by
  simp [statsTrainIds, foldl_insert_ids]

theorem processRemaining_ids (step : Nat → Nat × Nat) (qtr : RatPair) :
    ∀ (l : List IdInfo) (s : Nat),
      (processRemaining step qtr l s).2.2.1 = (l.map IdInfo.id).toFinset ∧
      (processRemaining step qtr l s).2.2.2.1 = (l.map IdInfo.id).toFinset := by
  intro l
  induction l with
  | nil => intro s; simp [processRemaining]
  | cons x xs ih =>
    intro s
    simp [processRemaining, (ih _).1, (ih _).2]

theorem processRemaining_copy_name (step : Nat → Nat × Nat) (qtr : RatPair) :
    ∀ (l : List IdInfo) (s : Nat) (nm im : String),
      ((nm, im) ∈ (processRemaining step qtr l s).1 ∨
        (nm, im) ∈ (processRemaining step qtr l s).2.1) →
      ∃ g ∈ l, g.name = nm := by
  intro l
  induction l with
  | nil => intro s nm im h; simp [processRemaining] at h
  | cons x xs ih =>
    intro s nm im h
    simp only [processRemaining, List.mem_append] at h
    rcases h with (h | h) | (h | h)
    · rcases List.mem_map.1 h with ⟨im', _, heq⟩
      exact ⟨x, List.mem_cons_self x xs, (Prod.mk.injEq _ _ _ _ ▸ heq).1⟩
    · rcases ih _ nm im (Or.inl h) with ⟨g, hg, he⟩
      exact ⟨g, List.mem_cons_of_mem x hg, he⟩
    · rcases List.mem_map.1 h with ⟨im', _, heq⟩
      exact ⟨x, List.mem_cons_self x xs, (Prod.mk.injEq _ _ _ _ ▸ heq).1⟩
    · rcases ih _ nm im (Or.inr h) with ⟨g, hg, he⟩
      exact ⟨g, List.mem_cons_of_mem x hg, he⟩

theorem adjustOvershoot_mem_train (ns t : Nat) (tr rem : List IdInfo) (cnt : Nat)
    {x : IdInfo} (hx : x ∈ tr) (hc : ¬ 1 < x.count) :
    x ∈ (adjustOvershoot ns t tr rem cnt).1 := by
  unfold adjustOvershoot
  split
  · split
    · rename_i last hl
      split
      · rename_i h1
        split
        · have hne : tr ≠ [] := by
            intro he
            rw [he] at hl
            simp at hl
          have hlast : tr.getLast hne = last := by
            have h := List.getLast?_eq_getLast tr hne
            rw [hl] at h
            exact (Option.some.inj h).symm
          have hdl : tr.dropLast ++ [tr.getLast hne] = tr := List.dropLast_append_getLast hne
          rw [← hdl] at hx
          rcases List.mem_append.1 hx with h | h
          · exact h
          · exfalso
            apply hc
            have hxl : x = last := by
              rw [← hlast]
              simpa using h
            rw [hxl]
            exact h1
        · exact hx
      · exact hx
    · exact hx
  · exact hx

/-- C4: in every run of the dataset splitter (any generator stream, any seed,
any ratios), an identity folder whose recognized image list is a single image
gets that image copied to train and never to query or gallery, provided
distinct folders have distinct names (true of any directory listing). -/
theorem split_singleton_always_train (step : Nat → Nat × Nat) (seed : Nat)
    (raw : List (String × List String)) (rt rq rg : RatPair) (fname img : String)
    (hnd : ((splitDataset step seed raw rt rq rg).infos.map IdInfo.name).Nodup)
    (hmem : IdInfo.mk fname [img] ∈ (splitDataset step seed raw rt rq rg).infos) :
    (fname, img) ∈ (splitDataset step seed raw rt rq rg).trainCopies ∧
    (fname, img) ∉ (splitDataset step seed raw rt rq rg).queryCopies ∧
    (fname, img) ∉ (splitDataset step seed raw rt rq rg).galleryCopies := by
  simp only [splitDataset] at hnd hmem ⊢
  have hperm := splitterAdj_partition_perm step seed raw rt
  set F : IdInfo := IdInfo.mk fname [img] with hF
  have hcount : F.count = 1 := rfl
  have hsingle : F ∈ splitterSingles raw := by
    rw [splitterSingles]
    exact List.mem_filter.2 ⟨hmem, by simp [hcount]⟩
  have hpre : F ∈ splitterPreTrain step seed raw rt := by
    rw [splitterPreTrain]
    exact List.mem_append_left _ hsingle
  have htrain : F ∈ (splitterAdj step seed raw rt).1 := by
    rw [splitterAdj]
    exact adjustOvershoot_mem_train _ _ _ _ _ hpre (by rw [hcount]; omega)
  have hnd0 : (mkInfos raw).Nodup := List.Nodup.of_map _ hnd
  have hnd2 : ((splitterAdj step seed raw rt).1 ++ (splitterAdj step seed raw rt).2.1).Nodup :=
    hperm.nodup_iff.2 hnd0
  have hdisj := (List.nodup_append.1 hnd2).2.2
  have hnotrem : ∀ g ∈ (splitterAdj step seed raw rt).2.1, g.name = fname → False := by
    intro g hg hgname
    have hginfos : g ∈ mkInfos raw :=
      hperm.mem_iff.1 (List.mem_append_right _ hg)
    have : g = F :=
      List.inj_on_of_nodup_map hnd hginfos hmem (by rw [hgname, hF])
    rw [this] at hg
    exact hdisj htrain hg
  refine ⟨?_, ?_, ?_⟩
  · apply List.mem_flatten.2
    refine ⟨F.images.map (fun im => (F.name, im)), List.mem_map_of_mem _ htrain, ?_⟩
    simp [hF]
  · intro hq
    rcases processRemaining_copy_name _ _ _ _ _ _ (Or.inl hq) with ⟨g, hg, hgname⟩
    exact hnotrem g hg hgname
  · intro hq
    rcases processRemaining_copy_name _ _ _ _ _ _ (Or.inr hq) with ⟨g, hg, hgname⟩
    exact hnotrem g hg hgname

/-- Input listing used to instantiate the splitter theorems at a concrete
directory: one singleton folder and one two-image folder. -/
def rawW : List (String × List String) :=
  [("0", ["a.JPG"]), ("1", ["b.JPG", "c.JPG"])]

theorem split_singleton_always_train_witness :
    ((splitDataset constStep 0 rawW (1, 2) (1, 4) (1, 4)).infos.map IdInfo.name).Nodup ∧
    IdInfo.mk "0" ["a.JPG"] ∈ (splitDataset constStep 0 rawW (1, 2) (1, 4) (1, 4)).infos ∧
    (("0", "a.JPG") ∈ (splitDataset constStep 0 rawW (1, 2) (1, 4) (1, 4)).trainCopies ∧
      ("0", "a.JPG") ∉ (splitDataset constStep 0 rawW (1, 2) (1, 4) (1, 4)).queryCopies ∧
      ("0", "a.JPG") ∉ (splitDataset constStep 0 rawW (1, 2) (1, 4) (1, 4)).galleryCopies) :=
  ⟨by decide, by decide,
    split_singleton_always_train constStep 0 rawW (1, 2) (1, 4) (1, 4) "0" "a.JPG"
      (by decide) (by decide)⟩

/-- C5 (amended): for every run of the dataset splitter whose digit-named
folders denote pairwise-distinct integer identities, the train identity set is
disjoint from the union of the query and gallery identity sets, and the query
identity set equals the gallery identity set.  The distinctness hypothesis is
forced: two folder names with the same integer value (for instance `1` and
`01`) can land on opposite sides of the split, which is exhibited by the
counterexample to the unconditional claim. -/
theorem split_identity_sets (step : Nat → Nat × Nat) (seed : Nat)
    (raw : List (String × List String)) (rt rq rg : RatPair)
    (h : ((splitDataset step seed raw rt rq rg).infos.map IdInfo.id).Nodup) :
    statsTrainIds (splitDataset step seed raw rt rq rg).trainIds ∩
        ((splitDataset step seed raw rt rq rg).queryIds ∪
          (splitDataset step seed raw rt rq rg).galleryIds) = ∅ ∧
    (splitDataset step seed raw rt rq rg).queryIds =
      (splitDataset step seed raw rt rq rg).galleryIds := by
  simp only [splitDataset, splitterProcess] at h ⊢
  have hperm := splitterAdj_partition_perm step seed raw rt
  have hq := (processRemaining_ids step (splitterQtr rq rg)
    (splitterAdj step seed raw rt).2.1 (splitterShuffle step seed raw).2).1
  have hgal := (processRemaining_ids step (splitterQtr rq rg)
    (splitterAdj step seed raw rt).2.1 (splitterShuffle step seed raw).2).2
  rw [hq, hgal, statsTrainIds_eq]
  refine ⟨?_, rfl⟩
  have hn2 : (((splitterAdj step seed raw rt).1 ++ (splitterAdj step seed raw rt).2.1).map
      IdInfo.id).Nodup :=
    (hperm.map IdInfo.id).nodup_iff.2 h
  rw [List.map_append] at hn2
  have hdisj := (List.nodup_append.1 hn2).2.2
  rw [Finset.union_self]
  apply Finset.eq_empty_iff_forall_not_mem.2
  intro x hx
  rw [Finset.mem_inter, List.mem_toFinset, List.mem_toFinset] at hx
  exact hdisj hx.1 hx.2

theorem split_identity_sets_witness :
    ((splitDataset constStep 0 rawW (1, 2) (1, 4) (1, 4)).infos.map IdInfo.id).Nodup ∧
    (statsTrainIds (splitDataset constStep 0 rawW (1, 2) (1, 4) (1, 4)).trainIds ∩
        ((splitDataset constStep 0 rawW (1, 2) (1, 4) (1, 4)).queryIds ∪
          (splitDataset constStep 0 rawW (1, 2) (1, 4) (1, 4)).galleryIds) = ∅ ∧
      (splitDataset constStep 0 rawW (1, 2) (1, 4) (1, 4)).queryIds =
        (splitDataset constStep 0 rawW (1, 2) (1, 4) (1, 4)).galleryIds) :=
  ⟨by decide, split_identity_sets constStep 0 rawW (1, 2) (1, 4) (1, 4) (by decide)⟩

/-- Directory listing with two digit folders denoting the same integer
identity (`1` and `01`), used to refute the unconditional identity
disjointness claim. -/
def rawC5 : List (String × List String) :=
  [("1", ["a.JPG", "b.JPG"]), ("01", ["c.JPG", "d.JPG"])]

/-- C5 counterexample: on the listing `rawC5` (folders `1` and `01`, two
images each) with seed stream `constStep`, train ratio 1/2 and query/gallery
ratios 1/4 each, the splitter assigns integer identity 1 to train (via folder
`01`) and to query/gallery (via folder `1`), so the train identity set is not
disjoint from the query/gallery identity sets. -/
theorem split_identity_overlap_counterexample :
    statsTrainIds (splitDataset constStep 0 rawC5 (1, 2) (1, 4) (1, 4)).trainIds ∩
        ((splitDataset constStep 0 rawC5 (1, 2) (1, 4) (1, 4)).queryIds ∪
          (splitDataset constStep 0 rawC5 (1, 2) (1, 4) (1, 4)).galleryIds) ≠ ∅ := by
  decide

/-- C8: the dataset splitter is deterministic — its outcome is a pure function
of the directory listing, the ratio parameters, and the seeded generator
stream, so two runs with equal inputs and equal seeds produce the same
train/query/gallery assignment. -/
theorem split_deterministic (step step' : Nat → Nat × Nat) (seed seed' : Nat)
    (raw raw' : List (String × List String)) (rt rt' rq rq' rg rg' : RatPair)
    (hstep : step = step') (hseed : seed = seed') (hraw : raw = raw')
    (hrt : rt = rt') (hrq : rq = rq') (hrg : rg = rg') :
    splitDataset step seed raw rt rq rg = splitDataset step' seed' raw' rt' rq' rg' := by
  subst hstep
  subst hseed
  subst hraw
  subst hrt
  subst hrq
  subst hrg
  rfl

theorem split_deterministic_witness :
    splitDataset constStep 0 rawW (1, 2) (1, 4) (1, 4) =
      splitDataset constStep 0 rawW (1, 2) (1, 4) (1, 4) :=
  split_deterministic constStep constStep 0 0 rawW rawW (1, 2) (1, 2) (1, 4) (1, 4)
    (1, 4) (1, 4) rfl rfl rfl rfl rfl rfl

/-- C1 (amended): after the greedy fill, when the running train image count
exceeds the train target and more than one multi-image identity was added to
train, the last-added identity is moved back into the query/gallery pool
exactly when its image count exceeds 1 and the overshoot (train image count
minus target) is more than half of that image count — the code's test is
`overshoot > last_id['count'] * 0.5`, not the other direction. -/
theorem adjustOvershoot_pop_iff (ns t : Nat) (tr rem : List IdInfo) (cnt : Nat)
    (last : IdInfo) (hl : tr.getLast? = some last) (hc : t < cnt)
    (hn : ns + 1 < tr.length) :
    adjustOvershoot ns t tr rem cnt = (tr.dropLast, last :: rem, cnt - last.count) ↔
      1 < last.count ∧ last.count < 2 * (cnt - t) := by
  have hne : tr ≠ [] := by
    intro he
    rw [he] at hl
    simp at hl
  have htr : tr ≠ tr.dropLast := by
    intro he
    have h1 : tr.length = tr.dropLast.length := by rw [← he]
    rw [List.length_dropLast] at h1
    have h0 : 0 < tr.length := List.length_pos.2 hne
    omega
  unfold adjustOvershoot
  rw [if_pos ⟨hc, hn⟩, hl]
  constructor
  · intro h
    by_cases h1 : 1 < last.count
    · by_cases h2 : last.count < 2 * (cnt - t)
      · exact ⟨h1, h2⟩
      · exfalso
        simp only [if_pos h1, if_neg h2, Prod.mk.injEq] at h
        exact htr h.1
    · exfalso
      simp only [if_neg h1, Prod.mk.injEq] at h
      exact htr h.1
  · intro ⟨h1, h2⟩
    simp only [if_pos h1, if_pos h2]

/-- Concrete state after a greedy fill: no singletons, two multi-image
identities in train (counts 2 and 3), train image count 5 against target 3. -/
def trainW : List IdInfo :=
  [IdInfo.mk "0" ["a.JPG", "b.JPG"], IdInfo.mk "1" ["c.JPG", "d.JPG", "e.JPG"]]

theorem adjustOvershoot_pop_iff_witness :
    (trainW.getLast? = some (IdInfo.mk "1" ["c.JPG", "d.JPG", "e.JPG"]) ∧
      3 < 5 ∧ 0 + 1 < trainW.length) ∧
    (adjustOvershoot 0 3 trainW [] 5 =
        (trainW.dropLast, [IdInfo.mk "1" ["c.JPG", "d.JPG", "e.JPG"]],
          5 - (IdInfo.mk "1" ["c.JPG", "d.JPG", "e.JPG"]).count) ↔
      1 < (IdInfo.mk "1" ["c.JPG", "d.JPG", "e.JPG"]).count ∧
        (IdInfo.mk "1" ["c.JPG", "d.JPG", "e.JPG"]).count < 2 * (5 - 3)) :=
  ⟨⟨by decide, by decide, by decide⟩,
    adjustOvershoot_pop_iff 0 3 trainW [] 5 (IdInfo.mk "1" ["c.JPG", "d.JPG", "e.JPG"])
      (by decide) (by decide) (by decide)⟩

/-- Directory listing of three multi-image folders with four images each, on
which the overshoot-correction guard fires but the last-added identity stays
in train although its image count is more than half of the overshoot. -/
def rawC1 : List (String × List String) :=
  [("0", ["a0.JPG", "a1.JPG", "a2.JPG", "a3.JPG"]),
   ("1", ["b0.JPG", "b1.JPG", "b2.JPG", "b3.JPG"]),
   ("2", ["c0.JPG", "c1.JPG", "c2.JPG", "c3.JPG"])]

/-- C1 counterexample: running the splitter on `rawC1` with train ratio 1/2
(target 6 of 12 images) puts two four-image identities in train (count 8,
overshoot 2); the guard of the claim holds and the last-added identity's
image count (4) is more than half of the overshoot (2), yet the splitter
leaves it in train — the code moves it only when the overshoot exceeds half
of the image count, the opposite comparison. -/
theorem split_overshoot_counterexample :
    (splitDataset constStep 0 rawC1 (1, 2) (3, 20) (7, 20)).targetTrain <
        (splitDataset constStep 0 rawC1 (1, 2) (3, 20) (7, 20)).preCount ∧
    (splitDataset constStep 0 rawC1 (1, 2) (3, 20) (7, 20)).singles.length + 1 <
        (splitDataset constStep 0 rawC1 (1, 2) (3, 20) (7, 20)).preTrain.length ∧
    (splitDataset constStep 0 rawC1 (1, 2) (3, 20) (7, 20)).preTrain.getLast? =
        some (IdInfo.mk "2" ["c0.JPG", "c1.JPG", "c2.JPG", "c3.JPG"]) ∧
    (splitDataset constStep 0 rawC1 (1, 2) (3, 20) (7, 20)).preCount -
        (splitDataset constStep 0 rawC1 (1, 2) (3, 20) (7, 20)).targetTrain <
      2 * (IdInfo.mk "2" ["c0.JPG", "c1.JPG", "c2.JPG", "c3.JPG"]).count ∧
    (splitDataset constStep 0 rawC1 (1, 2) (3, 20) (7, 20)).trainIds =
        (splitDataset constStep 0 rawC1 (1, 2) (3, 20) (7, 20)).preTrain ∧
    (splitDataset constStep 0 rawC1 (1, 2) (3, 20) (7, 20)).remainingIds =
        (splitDataset constStep 0 rawC1 (1, 2) (3, 20) (7, 20)).preRemaining := by
  decide

/-- The fixed list of zero-shot model names in `main` (`train.py`). -/
def zero_shot_models : List String := ["CLIPZeroShot", "SIGLIPZeroShot"]

/-- The two control paths the entry point can take after building the
trainer. -/
inductive RunAction where
  | test
  | train
deriving DecidableEq

/-- Python `args.model in zero_shot_models` where `args.model` is an optional
string: `None` is never an element of a list of strings. -/
def pyOptInList (x : Option String) (l : List String) : Bool :=
  match x with
  | some s => l.contains s
  | none => false

/-- The dispatch at the end of `main`: run `trainer.test()` when
`args.model in zero_shot_models`, else `trainer.train()`.  Note that the test
is on the CLI argument, not on `cfg.MODEL.NAME`. -/
def mainAction (argsModel : Option String) : RunAction :=
  if pyOptInList argsModel zero_shot_models then RunAction.test else RunAction.train

/-- Python truthiness of the optional `--model` argument (`if args.model:`). -/
def optTruthy (x : Option String) : Bool :=
  match x with
  | some s => !(s = "" : Bool)
  | none => false

/-- The `MODEL.NAME` value after `reset_cfg_from_args`: the CLI argument when
truthy, else the name merged from the model config file. -/
def effectiveModelName (argsModel : Option String) (mergedName : String) : String :=
  if optTruthy argsModel then argsModel.getD "" else mergedName

/-- C3 counterexample: when the model is selected only through the config
file (`--model` absent, `cfg.MODEL.NAME = "CLIPZeroShot"`), the effective
model name is a designated zero-shot backend, yet `main` takes the train
path, because the dispatch reads `args.model`, not `cfg.MODEL.NAME`. -/
theorem main_dispatch_counterexample :
    effectiveModelName none "CLIPZeroShot" = "CLIPZeroShot" ∧
    "CLIPZeroShot" ∈ zero_shot_models ∧
    mainAction none = RunAction.train := by
  decide

/-- C3 (amended): the entry point runs only the evaluation path exactly when
the `--model` CLI flag is given and names one of the two designated zero-shot
backends; a model name supplied only via the config file never triggers the
evaluation path. -/
theorem main_dispatch_iff (argsModel : Option String) :
    mainAction argsModel = RunAction.test ↔
      ∃ s, argsModel = some s ∧ s ∈ zero_shot_models := by
  cases argsModel with
  | none => simp [mainAction, pyOptInList]
  | some s =>
    by_cases h : s ∈ zero_shot_models
    · simp [mainAction, pyOptInList, List.elem_iff.2 h, h]
    · have hc : zero_shot_models.contains s = false := by
        rw [← Bool.not_eq_true]
        intro hcon
        exact h (List.elem_iff.1 hcon)
      simp [mainAction, pyOptInList, hc, h]

/-- The `MODEL` section of the configuration: its insertion-ordered key list
and the value of `cfg.MODEL.NAME`. -/
structure ModelCfg where
  keys : List String
  name : String
deriving DecidableEq

/-- Python `model or cfg.MODEL.NAME`: the CLI argument when truthy (a
non-empty string), else the configured name. -/
def pyOrName (model : Option String) (cfgName : String) : String :=
  match model with
  | some m => if m = "" then cfgName else m
  | none => cfgName

/-- The preserved key set of `clean_cfg`: the selected model's own block plus
the fixed cross-model keys. -/
def preserveKeys (modelName : String) : List String :=
  ["NAME", modelName, "METRIC_LOSS_TYPE", "NO_MARGIN", "IF_LABELSMOOTH",
   "ID_LOSS_WEIGHT", "TRIPLET_LOSS_WEIGHT"]

/-- The `clean_cfg` function of `train.py`: walk the keys of `cfg.MODEL` and
pop every key outside the preserved set for the selected model name. -/
def clean_cfg (mc : ModelCfg) (model : Option String) : ModelCfg :=
  { mc with keys := mc.keys.filter (fun k => (preserveKeys (pyOrName model mc.name)).contains k) }

/-- C9: after `clean_cfg`, every surviving key of `cfg.MODEL` is one of the
six preserved cross-model keys or the selected model's own named block (the
`--model` argument when non-empty, else `cfg.MODEL.NAME`), and every key
outside the preserved set has been removed. -/
theorem clean_cfg_keys (mc : ModelCfg) (model : Option String) :
    (∀ k ∈ (clean_cfg mc model).keys,
        k ∈ ["NAME", "METRIC_LOSS_TYPE", "NO_MARGIN", "IF_LABELSMOOTH",
             "ID_LOSS_WEIGHT", "TRIPLET_LOSS_WEIGHT"] ∨ k = pyOrName model mc.name) ∧
    (∀ k, k ∉ preserveKeys (pyOrName model mc.name) → k ∉ (clean_cfg mc model).keys) := by
  constructor
  · intro k hk
    have hmem := (List.mem_filter.1 hk).2
    have : k ∈ preserveKeys (pyOrName model mc.name) := List.elem_iff.1 hmem
    simp only [preserveKeys, List.mem_cons, List.not_mem_nil, or_false] at this
    rcases this with h | h | h | h | h | h | h <;> simp [h]
  · intro k hk hmem
    have := (List.mem_filter.1 hmem).2
    exact hk (List.elem_iff.1 this)

/-- A `MODEL` section holding two model blocks alongside the shared keys. -/
def cfgW : ModelCfg :=
  { keys := ["NAME", "CLIPZeroShot", "SIGLIPZeroShot", "METRIC_LOSS_TYPE"],
    name := "SIGLIPZeroShot" }

theorem clean_cfg_keys_witness :
    "CLIPZeroShot" ∈ cfgW.keys ∧
    "CLIPZeroShot" ∉ preserveKeys (pyOrName none cfgW.name) ∧
    "CLIPZeroShot" ∉ (clean_cfg cfgW none).keys :=
  ⟨by decide, by decide, (clean_cfg_keys cfgW none).2 "CLIPZeroShot" (by decide)⟩

/-- One row of the metadata table as consumed by the organizer. -/
structure OrgRow where
  identity : String
  path : String
  dataset : String
deriving DecidableEq

/-- State of the organizer's output directory and statistics: created identity
folders, copied files (target path paired with the source it was copied from,
most recent copy first), and the success/failure counters. -/
structure OrgState where
  folders : Finset String
  files : List (String × String)
  success : Nat
  failed : Nat
  failedFiles : List String
deriving DecidableEq

/-- The computed target path of a row: the identity folder plus the source's
base filename. -/
def orgTarget (row : OrgRow) : String :=
  row.identity ++ "/" ++ pyBasename row.path

/-- One iteration of the organizer's row loop: create the identity folder
(`os.makedirs(..., exist_ok=True)`) before checking the source, then either
copy (`shutil.copy2`, which overwrites an existing target) or record the
missing source as a failure. -/
def orgStep (src : Finset String) (st : OrgState) (row : OrgRow) : OrgState :=
  let st1 := { st with folders := insert row.identity st.folders }
  if row.path ∈ src then
    { st1 with files := (orgTarget row, row.path) :: st1.files, success := st1.success + 1 }
  else
    { st1 with failed := st1.failed + 1, failedFiles := st1.failedFiles ++ [row.path] }

/-- The organizer's initial state: a fresh output directory. -/
def orgInit : OrgState := ⟨∅, [], 0, 0, []⟩

/-- The row loop of `organize_images_by_identity` over the (already filtered)
metadata rows, against the set of source files present on disk. -/
def organize_rows (src : Finset String) (rows : List OrgRow) : OrgState :=
  rows.foldl (orgStep src) orgInit

/-- `organize_images_by_identity` including the species filter and the early
return when the filter leaves no rows (`none` models that abort). -/
def organize_images_by_identity (targets : Option (List String)) (rows : List OrgRow)
    (src : Finset String) : Option OrgState :=
  match targets with
  | some ts =>
    let rows2 := rows.filter (fun r => ts.contains r.dataset)
    if rows2.isEmpty then none else some (organize_rows src rows2)
  | none => some (organize_rows src rows)

/-- The organizer's final report `Total identities created`:
`len(os.listdir(output_dir))` on the fresh output directory. -/
def totalIdentitiesCreated (st : OrgState) : Nat :=
  st.folders.card

theorem orgStep_folders_mono (src : Finset String) (st : OrgState) (row : OrgRow) :
    st.folders ⊆ (orgStep src st row).folders := by
  unfold orgStep
  by_cases h : row.path ∈ src <;>
    simp [h, Finset.subset_insert]

theorem orgStep_failed_mono (src : Finset String) (st : OrgState) (row : OrgRow)
    {p : String} (hp : p ∈ st.failedFiles) : p ∈ (orgStep src st row).failedFiles := by
  unfold orgStep
  by_cases h : row.path ∈ src <;> simp [h, hp]

theorem org_foldl_mono (src : Finset String) :
    ∀ (rows : List OrgRow) (st : OrgState),
      st.folders ⊆ (rows.foldl (orgStep src) st).folders ∧
      ∀ p ∈ st.failedFiles, p ∈ (rows.foldl (orgStep src) st).failedFiles := by
  intro rows
  induction rows with
  | nil => intro st; exact ⟨Finset.Subset.refl _, fun p hp => hp⟩
  | cons r rest ih =>
    intro st
    refine ⟨Finset.Subset.trans (orgStep_folders_mono src st r) (ih _).1, ?_⟩
    intro p hp
    exact (ih _).2 p (orgStep_failed_mono src st r hp)

/-- C10: the organizer creates a row's identity folder before checking the
source file, so a row whose source is missing still creates (and keeps) the
identity folder, records the per-row failure, and the folder contributes to
the final `Total identities created` count. -/
theorem organize_missing_source_creates_folder (src : Finset String) (rows : List OrgRow)
    (row : OrgRow) (hmem : row ∈ rows) (hmiss : row.path ∉ src) :
    row.identity ∈ (organize_rows src rows).folders ∧
    row.path ∈ (organize_rows src rows).failedFiles ∧
    0 < totalIdentitiesCreated (organize_rows src rows) := by
  rcases List.append_of_mem hmem with ⟨pre, post, rfl⟩
  unfold organize_rows
  rw [List.foldl_append]
  set st0 := pre.foldl (orgStep src) orgInit with hst0
  rw [List.foldl_cons]
  have hfold : (orgStep src st0 row).folders ⊆
      (post.foldl (orgStep src) (orgStep src st0 row)).folders :=
    (org_foldl_mono src post _).1
  have hid : row.identity ∈ (orgStep src st0 row).folders := by
    unfold orgStep
    simp [hmiss]
  have hfail : row.path ∈ (orgStep src st0 row).failedFiles := by
    unfold orgStep
    simp [hmiss]
  have h1 : row.identity ∈ (post.foldl (orgStep src) (orgStep src st0 row)).folders :=
    hfold hid
  refine ⟨h1, (org_foldl_mono src post _).2 _ hfail, ?_⟩
  exact Finset.card_pos.2 ⟨row.identity, h1⟩

/-- Metadata rows for the organizer instances: a row with a missing source. -/
def orgRowsW : List OrgRow := [⟨"B", "missing/g.jpg", "D"⟩]

theorem organize_missing_source_creates_folder_witness :
    (⟨"B", "missing/g.jpg", "D"⟩ : OrgRow) ∈ orgRowsW ∧
    "missing/g.jpg" ∉ (∅ : Finset String) ∧
    ("B" ∈ (organize_rows ∅ orgRowsW).folders ∧
      "missing/g.jpg" ∈ (organize_rows ∅ orgRowsW).failedFiles ∧
      0 < totalIdentitiesCreated (organize_rows ∅ orgRowsW)) :=
  ⟨by decide, by decide,
    organize_missing_source_creates_folder ∅ orgRowsW ⟨"B", "missing/g.jpg", "D"⟩
      (by decide) (by decide)⟩

theorem organize_last_write_aux (src : Finset String) (pre : List OrgRow) (row : OrgRow)
    (hsrc : row.path ∈ src) :
    (organize_rows src (pre ++ [row])).files.lookup (orgTarget row) = some row.path ∧
    (organize_rows src (pre ++ [row])).success = (organize_rows src pre).success + 1 ∧
    (organize_rows src (pre ++ [row])).failed = (organize_rows src pre).failed := by
  unfold organize_rows
  rw [List.foldl_append]
  simp [orgStep, hsrc, List.lookup]

/-- Metadata rows whose computed target paths collide: same identity, same
base filename, different source paths, both sources present. -/
def orgRowsC2 : List OrgRow :=
  [⟨"A", "x/f.jpg", "D"⟩, ⟨"A", "y/f.jpg", "D"⟩]

/-- C2 counterexample: processing `orgRowsC2`, both rows compute the same
target path `A/f.jpg`; the organizer copies the second row over the
already-existing target, counts two successes and reports no failure, so the
pre-existing entry is overwritten rather than skipped and reported. -/
theorem organize_overwrite_counterexample :
    orgTarget ⟨"A", "x/f.jpg", "D"⟩ = orgTarget ⟨"A", "y/f.jpg", "D"⟩ ∧
    (organize_rows {"x/f.jpg", "y/f.jpg"} orgRowsC2).files.lookup "A/f.jpg" =
        some "y/f.jpg" ∧
    (organize_rows {"x/f.jpg", "y/f.jpg"} orgRowsC2).success = 2 ∧
    (organize_rows {"x/f.jpg", "y/f.jpg"} orgRowsC2).failed = 0 ∧
    (organize_rows {"x/f.jpg", "y/f.jpg"} orgRowsC2).failedFiles = [] := by
  decide

/-- `os.rename` on a directory's entry set, with Windows semantics: the move
succeeds only when the source exists and the destination does not; a failed
move changes nothing and is reported through the returned flag. -/
def moveEntry (fs : Finset String) (src dst : String) : Finset String × Bool :=
  if src ∈ fs ∧ dst ∉ fs then (insert dst (fs.erase src), true) else (fs, false)

/-- The temporary name `TEMP_{old_name}` used by the two-phase renamer. -/
def tempNameOf (s : String) : String :=
  "TEMP_" ++ s

/-- Recovery of the original name from a temporary name, embedding
`temp_name.replace("TEMP_", "")`: every temporary name the renamer builds is
`TEMP_` followed by a digit string, in which the tag occurs exactly once, as
the leading five characters, so the replacement removes exactly them. -/
def stripTempTag (s : String) : String :=
  ⟨s.data.drop 5⟩

/-- The per-folder planning step of `rename_folders_decrement_safe`: keep a
purely-numeric folder name whose decrement stays nonnegative, pairing it with
its decremented target name and its current number. -/
def decPlanOne (n : String) : Option (String × String × Nat) :=
  if isDigitName n then
    if 1 ≤ strToNat n then some (n, natToDecimal (strToNat n - 1), strToNat n)
    else none
  else none

/-- The planned operations of `rename_folders_decrement_safe`, sorted by
current number ascending (stably, as Python's `sort` does). -/
def decOps (items : List String) : List (String × String × Nat) :=
  insSortBy (fun a b => a.2.2 ≤ b.2.2) (items.filterMap decPlanOne)

/-- Phase 1 of the safe renamer: rename every planned folder to its temporary
name, collecting the successful `(temp name, final name)` pairs in
chronological order together with the success and failure counts. -/
def phase1 (fs : Finset String) :
    List (String × String × Nat) → Finset String × List (String × String) × Nat × Nat
  | [] => (fs, [], 0, 0)
  | op :: rest =>
    let mv := moveEntry fs op.1 (tempNameOf op.1)
    let r := phase1 mv.1 rest
    if mv.2 then (r.1, (tempNameOf op.1, op.2.1) :: r.2.1, r.2.2.1 + 1, r.2.2.2)
    else (r.1, r.2.1, r.2.2.1, r.2.2.2 + 1)

/-- The rollback performed when phase 1 had any failure: rename every
temporary name back to the original recovered by dropping the `TEMP_` tag. -/
def rollbackTemps (fs : Finset String) : List (String × String) → Finset String
  | [] => fs
  | e :: rest => rollbackTemps (moveEntry fs e.1 (stripTempTag e.1)).1 rest

/-- Phase 2 of the safe renamer: rename the temporary names to their final
names, counting successes and failures. -/
def phase2 (fs : Finset String) : List (String × String) → Finset String × Nat × Nat
  | [] => (fs, 0, 0)
  | e :: rest =>
    let mv := moveEntry fs e.1 e.2
    let r := phase2 mv.1 rest
    if mv.2 then (r.1, r.2.1 + 1, r.2.2) else (r.1, r.2.1, r.2.2 + 1)

/-- Result record of one `rename_folders_decrement_safe(..., dry_run=False)`
run: the final directory contents, the phase-1 mapping and counters, and
whether phase 2 was entered at all. -/
structure DecRun where
  fs : Finset String
  mapping : List (String × String)
  phase1Success : Nat
  phase1Failed : Nat
  phase2Entered : Bool
  phase2Success : Nat
  phase2Failed : Nat
deriving DecidableEq

/-- The safe two-phase decrement renamer on a directory listing, with
`dry_run=False`: plan the operations, return early when there is nothing to
rename, run phase 1, and on any phase-1 failure roll back every temporary
name and never enter phase 2; otherwise run phase 2. -/
def rename_folders_decrement_safe (items : List String) : DecRun :=
  let ops := decOps items
  let fs0 := items.toFinset
  if ops.isEmpty then ⟨fs0, [], 0, 0, false, 0, 0⟩
  else
    let p1 := phase1 fs0 ops
    if 0 < p1.2.2.2 then
      ⟨rollbackTemps p1.1 p1.2.1, p1.2.1, p1.2.2.1, p1.2.2.2, false, 0, 0⟩
    else
      let p2 := phase2 p1.1 p1.2.1
      ⟨p2.1, p1.2.1, p1.2.2.1, p1.2.2.2, true, p2.2.1, p2.2.2⟩

theorem tempNameOf_data (s : String) :
    (tempNameOf s).data = 'T' :: 'E' :: 'M' :: 'P' :: '_' :: s.data := rfl

theorem tempNameOf_not_digit (s : String) : isDigitName (tempNameOf s) = false := by
  simp [isDigitName, tempNameOf_data]

theorem tempNameOf_inj {a b : String} (h : tempNameOf a = tempNameOf b) : a = b := by
  have hd : (tempNameOf a).data = (tempNameOf b).data := by rw [h]
  rw [tempNameOf_data, tempNameOf_data] at hd
  simp only [List.cons.injEq, true_and] at hd
  cases a
  cases b
  exact congrArg String.mk hd

theorem stripTempTag_tempNameOf (s : String) : stripTempTag (tempNameOf s) = s := by
  cases s
  rfl

theorem decPlanOne_eq {n : String} {o : String × String × Nat}
    (h : decPlanOne n = some o) :
    o = (n, natToDecimal (strToNat n - 1), strToNat n) ∧
      isDigitName n = true ∧ 1 ≤ strToNat n := by
  unfold decPlanOne at h
  by_cases hd : isDigitName n
  · by_cases hle : 1 ≤ strToNat n
    · rw [if_pos hd, if_pos hle] at h
      exact ⟨(Option.some.inj h).symm, hd, hle⟩
    · rw [if_pos hd, if_neg hle] at h
      cases h
  · rw [if_neg hd] at h
    cases h

theorem decOps_mem {items : List String} {o : String × String × Nat}
    (h : o ∈ decOps items) :
    o.1 ∈ items ∧ isDigitName o.1 = true ∧ 1 ≤ strToNat o.1 := by
  have h2 : o ∈ items.filterMap decPlanOne := (insSortBy_perm _ _).mem_iff.1 h
  rcases List.mem_filterMap.1 h2 with ⟨a, ha, heq⟩
  rcases decPlanOne_eq heq with ⟨rfl, hd, hle⟩
  exact ⟨ha, hd, hle⟩

theorem decOps_srcs_nodup {items : List String} (h : items.Nodup) :
    ((decOps items).map (fun o => o.1)).Nodup := by
  have hperm : List.Perm ((decOps items).map (fun o => o.1))
      ((items.filterMap decPlanOne).map (fun o => o.1)) :=
    (insSortBy_perm _ _).map _
  apply hperm.nodup_iff.2
  have hfm : (items.filterMap decPlanOne).Nodup := by
    apply List.Nodup.filterMap _ h
    intro a a' b hb hb'
    rcases decPlanOne_eq hb with ⟨rfl, _, _⟩
    rcases decPlanOne_eq hb' with ⟨heq, _, _⟩
    exact congrArg Prod.fst heq
  apply hfm.map_on
  intro x hx y hy hxy
  rcases List.mem_filterMap.1 hx with ⟨a, _, ha⟩
  rcases List.mem_filterMap.1 hy with ⟨a', _, ha'⟩
  rcases decPlanOne_eq ha with ⟨rfl, _, _⟩
  rcases decPlanOne_eq ha' with ⟨rfl, _, _⟩
  simp only at hxy
  rw [hxy]

theorem moveEntry_keeps (fs : Finset String) {s d x : String} (hx : x ∈ fs)
    (hne : s ≠ x) : x ∈ (moveEntry fs s d).1 := by
  unfold moveEntry
  split
  · exact Finset.mem_insert.2 (Or.inr (Finset.mem_erase.2 ⟨Ne.symm hne, hx⟩))
  · exact hx

theorem moveEntry_fst_pos (fs : Finset String) {s d : String}
    (h : s ∈ fs ∧ d ∉ fs) : (moveEntry fs s d).1 = insert d (fs.erase s) := by
  unfold moveEntry
  rw [if_pos h]

theorem moveEntry_fst_neg (fs : Finset String) {s d : String}
    (h : ¬(s ∈ fs ∧ d ∉ fs)) : (moveEntry fs s d).1 = fs := by
  unfold moveEntry
  rw [if_neg h]

theorem moveEntry_snd_pos (fs : Finset String) {s d : String}
    (h : s ∈ fs ∧ d ∉ fs) : (moveEntry fs s d).2 = true := by
  unfold moveEntry
  rw [if_pos h]

theorem moveEntry_snd_neg (fs : Finset String) {s d : String}
    (h : ¬(s ∈ fs ∧ d ∉ fs)) : (moveEntry fs s d).2 = false := by
  unfold moveEntry
  rw [if_neg h]

theorem moveEntry_comm (fs : Finset String) {a b c d : String}
    (hac : a ≠ c) (had : a ≠ d) (hbc : b ≠ c) (hbd : b ≠ d) :
    (moveEntry (moveEntry fs a b).1 c d).1 = (moveEntry (moveEntry fs c d).1 a b).1 := by
  have memab : ∀ x : String, x ≠ a → x ≠ b → (x ∈ insert b (fs.erase a) ↔ x ∈ fs) := by
    intro x hxa hxb
    simp [Finset.mem_insert, Finset.mem_erase, hxa, hxb]
  have memcd : ∀ x : String, x ≠ c → x ≠ d → (x ∈ insert d (fs.erase c) ↔ x ∈ fs) := by
    intro x hxc hxd
    simp [Finset.mem_insert, Finset.mem_erase, hxc, hxd]
  by_cases h1 : a ∈ fs ∧ b ∉ fs
  · by_cases h2 : c ∈ fs ∧ d ∉ fs
    · have h2' : c ∈ insert b (fs.erase a) ∧ d ∉ insert b (fs.erase a) :=
        ⟨(memab c (Ne.symm hac) (Ne.symm hbc)).2 h2.1,
          fun hd => h2.2 ((memab d (Ne.symm had) (Ne.symm hbd)).1 hd)⟩
      have h1' : a ∈ insert d (fs.erase c) ∧ b ∉ insert d (fs.erase c) :=
        ⟨(memcd a hac had).2 h1.1, fun hb => h1.2 ((memcd b hbc hbd).1 hb)⟩
      rw [moveEntry_fst_pos fs h1, moveEntry_fst_pos fs h2,
        moveEntry_fst_pos _ h2', moveEntry_fst_pos _ h1']
      ext x
      simp only [Finset.mem_insert, Finset.mem_erase]
      by_cases hx1 : x = a <;> by_cases hx2 : x = b <;> by_cases hx3 : x = c <;>
        by_cases hx4 : x = d <;> simp_all
    · have h2' : ¬(c ∈ insert b (fs.erase a) ∧ d ∉ insert b (fs.erase a)) := by
        intro hcon
        exact h2 ⟨(memab c (Ne.symm hac) (Ne.symm hbc)).1 hcon.1,
          fun hd => hcon.2 ((memab d (Ne.symm had) (Ne.symm hbd)).2 hd)⟩
      rw [moveEntry_fst_pos fs h1, moveEntry_fst_neg fs h2,
        moveEntry_fst_neg _ h2', moveEntry_fst_pos fs h1]
  · by_cases h2 : c ∈ fs ∧ d ∉ fs
    · have h1' : ¬(a ∈ insert d (fs.erase c) ∧ b ∉ insert d (fs.erase c)) := by
        intro hcon
        exact h1 ⟨(memcd a hac had).1 hcon.1, fun hb => hcon.2 ((memcd b hbc hbd).2 hb)⟩
      rw [moveEntry_fst_neg fs h1, moveEntry_fst_pos fs h2, moveEntry_fst_neg _ h1']
    · rw [moveEntry_fst_neg fs h1, moveEntry_fst_neg fs h2, moveEntry_fst_neg fs h1]

theorem rollbackTemps_comm :
    ∀ (m : List (String × String)) (fs : Finset String) (t o : String),
      (∀ e ∈ m, e.1 ≠ t ∧ e.1 ≠ o ∧ stripTempTag e.1 ≠ t ∧ stripTempTag e.1 ≠ o) →
      rollbackTemps (moveEntry fs t o).1 m = (moveEntry (rollbackTemps fs m) t o).1 := by
  intro m
  induction m with
  | nil => intro fs t o h; rfl
  | cons e rest ih =>
    intro fs t o h
    have he := h e (List.mem_cons_self _ _)
    simp only [rollbackTemps]
    rw [moveEntry_comm fs (Ne.symm he.1) (Ne.symm he.2.2.1) (Ne.symm he.2.1)
      (Ne.symm he.2.2.2)]
    exact ih _ t o (fun e' he' => h e' (List.mem_cons_of_mem _ he'))

theorem phase1_mapping_mem :
    ∀ (ops : List (String × String × Nat)) (fs : Finset String) {e : String × String},
      e ∈ (phase1 fs ops).2.1 → ∃ o ∈ ops, e.1 = tempNameOf o.1 := by
  intro ops
  induction ops with
  | nil =>
    intro fs e h
    simp [phase1] at h
  | cons op rest ih =>
    intro fs e h
    simp only [phase1] at h
    by_cases hmv : (moveEntry fs op.1 (tempNameOf op.1)).2 = true
    · rw [if_pos hmv] at h
      rcases List.mem_cons.1 h with he | he
      · exact ⟨op, List.mem_cons_self _ _, by rw [he]⟩
      · rcases ih _ he with ⟨o, ho, heq⟩
        exact ⟨o, List.mem_cons_of_mem _ ho, heq⟩
    · rw [if_neg hmv] at h
      rcases ih _ h with ⟨o, ho, heq⟩
      exact ⟨o, List.mem_cons_of_mem _ ho, heq⟩

theorem digit_ne_temp {a b : String} (h : isDigitName a = true) : a ≠ tempNameOf b := by
  intro he
  rw [he, tempNameOf_not_digit] at h
  cases h

theorem phase1_rollback_restores :
    ∀ (ops : List (String × String × Nat)) (fs : Finset String),
      (∀ o ∈ ops, o.1 ∈ fs) →
      ((ops.map (fun o => o.1)).Nodup) →
      (∀ o ∈ ops, isDigitName o.1 = true) →
      rollbackTemps (phase1 fs ops).1 (phase1 fs ops).2.1 = fs := by
  intro ops
  induction ops with
  | nil =>
    intro fs _ _ _
    rfl
  | cons op rest ih =>
    intro fs hsrc hnd hdig
    have hdigop : isDigitName op.1 = true := hdig op (List.mem_cons_self _ _)
    have hopfs : op.1 ∈ fs := hsrc op (List.mem_cons_self _ _)
    have hndrest : ((rest.map (fun o => o.1)).Nodup) := (List.nodup_cons.1 hnd).2
    have hopnotin : op.1 ∉ rest.map (fun o => o.1) := (List.nodup_cons.1 hnd).1
    simp only [phase1]
    by_cases hmv : (moveEntry fs op.1 (tempNameOf op.1)).2 = true
    · rw [if_pos hmv]
      have hcond : op.1 ∈ fs ∧ tempNameOf op.1 ∉ fs := by
        by_contra hc
        rw [moveEntry_snd_neg fs hc] at hmv
        cases hmv
      have hfs1 : (moveEntry fs op.1 (tempNameOf op.1)).1 =
          insert (tempNameOf op.1) (fs.erase op.1) := moveEntry_fst_pos fs hcond
      have hsrc' : ∀ o ∈ rest, o.1 ∈ (moveEntry fs op.1 (tempNameOf op.1)).1 := by
        intro o ho
        have hne : op.1 ≠ o.1 := by
          intro he
          exact hopnotin (he ▸ List.mem_map_of_mem (fun o => o.1) ho)
        exact moveEntry_keeps fs (hsrc o (List.mem_cons_of_mem _ ho)) hne
      have hdig' : ∀ o ∈ rest, isDigitName o.1 = true :=
        fun o ho => hdig o (List.mem_cons_of_mem _ ho)
      have hdiff : ∀ e ∈ (phase1 (moveEntry fs op.1 (tempNameOf op.1)).1 rest).2.1,
          e.1 ≠ tempNameOf op.1 ∧ e.1 ≠ op.1 ∧
          stripTempTag e.1 ≠ tempNameOf op.1 ∧ stripTempTag e.1 ≠ op.1 := by
        intro e he
        rcases phase1_mapping_mem rest _ he with ⟨o, ho, heq⟩
        have hdo : isDigitName o.1 = true := hdig' o ho
        have honeq : o.1 ≠ op.1 := by
          intro hoe
          exact hopnotin (hoe ▸ List.mem_map_of_mem (fun o => o.1) ho)
        rw [heq, stripTempTag_tempNameOf]
        refine ⟨?_, ?_, ?_, honeq⟩
        · intro hcon
          exact honeq (tempNameOf_inj hcon)
        · exact Ne.symm (digit_ne_temp hdigop)
        · exact digit_ne_temp hdo
      simp only [rollbackTemps]
      rw [stripTempTag_tempNameOf]
      rw [rollbackTemps_comm _ _ _ _ hdiff]
      rw [ih _ hsrc' hndrest hdig']
      rw [hfs1]
      have ht_not : tempNameOf op.1 ∉ fs.erase op.1 :=
        fun hcon => hcond.2 (Finset.mem_of_mem_erase hcon)
      have hback : tempNameOf op.1 ∈ insert (tempNameOf op.1) (fs.erase op.1) ∧
          op.1 ∉ insert (tempNameOf op.1) (fs.erase op.1) := by
        constructor
        · exact Finset.mem_insert_self _ _
        · intro hcon
          rcases Finset.mem_insert.1 hcon with hcon | hcon
          · exact digit_ne_temp hdigop hcon
          · exact (Finset.mem_erase.1 hcon).1 rfl
      rw [moveEntry_fst_pos _ hback]
      rw [Finset.erase_insert ht_not]
      exact Finset.insert_erase hopfs
    · rw [if_neg hmv]
      have hfs : (moveEntry fs op.1 (tempNameOf op.1)).1 = fs := by
        by_cases hc : op.1 ∈ fs ∧ tempNameOf op.1 ∉ fs
        · exfalso
          rw [moveEntry_snd_pos fs hc] at hmv
          exact hmv rfl
        · exact moveEntry_fst_neg fs hc
      rw [hfs]
      exact ih _ (fun o ho => hsrc o (List.mem_cons_of_mem _ ho)) hndrest
        (fun o ho => hdig o (List.mem_cons_of_mem _ ho))

/-- C7: if any phase-1 rename of the safe two-phase decrement renamer fails
(with `dry_run=False`), then after the operation returns every folder renamed
to a temporary name is back under its original name — the directory contents
equal the initial listing — no folder carries a final target name, and
phase 2 is never entered.  The modelled rename either succeeds or leaves the
filesystem unchanged, so the rollback renames themselves succeed. -/
theorem rename_decrement_phase1_rollback (items : List String) (hnd : items.Nodup)
    (hfail : 0 < (rename_folders_decrement_safe items).phase1Failed) :
    (rename_folders_decrement_safe items).fs = items.toFinset ∧
    (rename_folders_decrement_safe items).phase2Entered = false := by
  have hsrc : ∀ o ∈ decOps items, o.1 ∈ items.toFinset := by
    intro o ho
    exact List.mem_toFinset.2 (decOps_mem ho).1
  have hdig : ∀ o ∈ decOps items, isDigitName o.1 = true := by
    intro o ho
    exact (decOps_mem ho).2.1
  have hndsrc := decOps_srcs_nodup hnd
  simp only [rename_folders_decrement_safe] at hfail ⊢
  by_cases hemp : (decOps items).isEmpty
  · rw [if_pos hemp] at hfail
    cases hfail
  · rw [if_neg hemp] at hfail ⊢
    by_cases hf : 0 < (phase1 items.toFinset (decOps items)).2.2.2
    · rw [if_pos hf]
      exact ⟨phase1_rollback_restores (decOps items) items.toFinset hsrc hndsrc hdig, rfl⟩
    · rw [if_neg hf] at hfail
      exact absurd hfail hf

/-- Directory listing on which phase 1 of the decrement renamer fails: the
entry `TEMP_2` already occupies the temporary name computed for folder `2`. -/
def itemsC7 : List String := ["1", "2", "TEMP_2"]

theorem rename_decrement_phase1_rollback_witness :
    (itemsC7.Nodup ∧ 0 < (rename_folders_decrement_safe itemsC7).phase1Failed) ∧
    ((rename_folders_decrement_safe itemsC7).fs = itemsC7.toFinset ∧
      (rename_folders_decrement_safe itemsC7).phase2Entered = false) :=
  ⟨⟨by decide, by decide⟩,
    rename_decrement_phase1_rollback itemsC7 (by decide) (by decide)⟩

theorem phase1_keeps (x : String) :
    ∀ (ops : List (String × String × Nat)) (fs : Finset String),
      x ∈ fs → (∀ o ∈ ops, o.1 ≠ x) →
      x ∈ (phase1 fs ops).1 ∧ ∀ e ∈ (phase1 fs ops).2.1, e.1 ≠ x := by
  intro ops
  induction ops with
  | nil =>
    intro fs hx _
    exact ⟨hx, by simp [phase1]⟩
  | cons op rest ih =>
    intro fs hx h
    simp only [phase1]
    by_cases hmv : (moveEntry fs op.1 (tempNameOf op.1)).2 = true
    · rw [if_pos hmv]
      have hxin : x ∈ (moveEntry fs op.1 (tempNameOf op.1)).1 :=
        moveEntry_keeps fs hx (h op (List.mem_cons_self _ _))
      have hrest := ih _ hxin (fun o ho => h o (List.mem_cons_of_mem _ ho))
      refine ⟨hrest.1, ?_⟩
      intro e he
      rcases List.mem_cons.1 he with rfl | he'
      · have hcond : op.1 ∈ fs ∧ tempNameOf op.1 ∉ fs := by
          by_contra hc
          rw [moveEntry_snd_neg fs hc] at hmv
          cases hmv
        intro hex
        apply hcond.2
        have hex' : tempNameOf op.1 = x := hex
        rw [hex']
        exact hx
      · exact hrest.2 e he'
    · rw [if_neg hmv]
      have hfs : (moveEntry fs op.1 (tempNameOf op.1)).1 = fs := by
        by_cases hc : op.1 ∈ fs ∧ tempNameOf op.1 ∉ fs
        · exfalso
          rw [moveEntry_snd_pos fs hc] at hmv
          exact hmv rfl
        · exact moveEntry_fst_neg fs hc
      rw [hfs]
      exact ih _ hx (fun o ho => h o (List.mem_cons_of_mem _ ho))

theorem rollbackTemps_keeps (x : String) :
    ∀ (m : List (String × String)) (fs : Finset String),
      x ∈ fs → (∀ e ∈ m, e.1 ≠ x) → x ∈ rollbackTemps fs m := by
  intro m
  induction m with
  | nil => intro fs hx _; exact hx
  | cons e rest ih =>
    intro fs hx h
    simp only [rollbackTemps]
    exact ih _ (moveEntry_keeps fs hx (h e (List.mem_cons_self _ _)))
      (fun e' he' => h e' (List.mem_cons_of_mem _ he'))

theorem phase2_keeps (x : String) :
    ∀ (m : List (String × String)) (fs : Finset String),
      x ∈ fs → (∀ e ∈ m, e.1 ≠ x) → x ∈ (phase2 fs m).1 := by
  intro m
  induction m with
  | nil => intro fs hx _; exact hx
  | cons e rest ih =>
    intro fs hx h
    simp only [phase2]
    have hxin : x ∈ (moveEntry fs e.1 e.2).1 :=
      moveEntry_keeps fs hx (h e (List.mem_cons_self _ _))
    have := ih _ hxin (fun e' he' => h e' (List.mem_cons_of_mem _ he'))
    by_cases hmv : (moveEntry fs e.1 e.2).2 = true
    · rw [if_pos hmv]
      exact this
    · rw [if_neg hmv]
      exact this

theorem decrement_keeps_aux (items : List String) (x : String) (hx : x ∈ items)
    (hnr : ¬(isDigitName x = true ∧ 1 ≤ strToNat x)) :
    x ∈ (rename_folders_decrement_safe items).fs := by
  have hops : ∀ o ∈ decOps items, o.1 ≠ x := by
    intro o ho he
    rcases decOps_mem ho with ⟨_, hd, hle⟩
    exact hnr ⟨he ▸ hd, he ▸ hle⟩
  simp only [rename_folders_decrement_safe]
  have hx0 : x ∈ items.toFinset := List.mem_toFinset.2 hx
  by_cases hemp : (decOps items).isEmpty
  · rw [if_pos hemp]
    exact hx0
  · rw [if_neg hemp]
    have h1 := phase1_keeps x (decOps items) items.toFinset hx0 hops
    by_cases hf : 0 < (phase1 items.toFinset (decOps items)).2.2.2
    · rw [if_pos hf]
      exact rollbackTemps_keeps x _ _ h1.1 h1.2
    · rw [if_neg hf]
      exact phase2_keeps x _ _ h1.1 h1.2

/-- C2 (amended): the safe two-phase decrement renamer never overwrites a
pre-existing directory entry — every entry that is not itself subject to
renaming (any non-numeric or zero-valued name, in particular one occupying a
computed temporary or final target) survives the whole operation, because the
colliding rename attempts fail and are reported (a phase-1 collision rolling
back the whole batch rather than skipping one item).  The identity-folder
organizer's per-row copy, however, performs no target check: a row whose
computed target path already exists overwrites it with the new source and
counts the row as a success rather than skipping and reporting it. -/
theorem collision_handling_renamer_vs_organizer :
    (∀ (items : List String) (x : String), x ∈ items →
        ¬(isDigitName x = true ∧ 1 ≤ strToNat x) →
        x ∈ (rename_folders_decrement_safe items).fs) ∧
    (∀ (src : Finset String) (pre : List OrgRow) (row : OrgRow), row.path ∈ src →
        (organize_rows src (pre ++ [row])).files.lookup (orgTarget row) = some row.path ∧
        (organize_rows src (pre ++ [row])).success = (organize_rows src pre).success + 1 ∧
        (organize_rows src (pre ++ [row])).failed = (organize_rows src pre).failed) :=
  ⟨decrement_keeps_aux, organize_last_write_aux⟩

theorem collision_handling_witness :
    ("TEMP_1" ∈ ["TEMP_1", "1"] ∧
      ¬(isDigitName "TEMP_1" = true ∧ 1 ≤ strToNat "TEMP_1")) ∧
    "TEMP_1" ∈ (rename_folders_decrement_safe ["TEMP_1", "1"]).fs :=
  ⟨⟨by decide, by decide⟩,
    collision_handling_renamer_vs_organizer.1 ["TEMP_1", "1"] "TEMP_1"
      (by decide) (by decide)⟩

/-- `os.rename` on a folder's file listing, with the same fail-on-existing
semantics as `moveEntry` but on a list of names. -/
def fsRename (fs : List String) (src dst : String) : List String :=
  if src ∈ fs ∧ dst ∉ fs then fs.erase src ++ [dst] else fs

/-- Apply a list of renames in order, each either succeeding or leaving the
listing unchanged. -/
def applyRenames : List (String × String) → List String → List String
  | [], fs => fs
  | op :: rest, fs => applyRenames rest (fsRename fs op.1 op.2)

/-- The scripts' per-folder image listing: recognized image files sorted by
name, the snapshot both the renamer and the rollback iterate over. -/
def listImages (fs : List String) : List String :=
  insSortBy strLeb (fs.filter isRecognizedImage)

/-- The canonical encoded filename `{id}_-1_{index}_{original}`. -/
def imageEncode (tid idx : Nat) (orig : String) : String :=
  natToDecimal tid ++ "_-1_" ++ natToDecimal idx ++ "_" ++ orig

/-- The per-identity tag `{id}_-1_` the rollback script matches with
`startswith`. -/
def idTagOf (tid : Nat) : String :=
  natToDecimal tid ++ "_-1_"

/-- The rename operations `rename_turtle_images` performs in one identity
folder: enumerate the sorted image listing and rename each file to its
encoded name. -/
def renameOps (tid : Nat) (files : List String) : List (String × String) :=
  files.enum.map (fun p => (p.2, imageEncode tid p.1 p.2))

/-- The body of `rename_turtle_images` for a single identity folder with
numeric value `tid` and file listing `fs`. -/
def rename_turtle_images_folder (tid : Nat) (fs : List String) : List String :=
  applyRenames (renameOps tid (listImages fs)) fs

/-- The rollback loop over a folder's image listing: for every file matching
the `{id}_-1_` tag, split the name on `_` into at most four parts and rename
the file to the fourth part; other files are skipped. -/
def rollbackGo (tid : Nat) : List String → List String → List String
  | [], fs => fs
  | f :: rest, fs =>
    if pyStartsWith f (idTagOf tid) then
      if 4 ≤ (pySplitU3 f).length then
        rollbackGo tid rest (fsRename fs f (((pySplitU3 f).get? 3).getD ""))
      else rollbackGo tid rest fs
    else rollbackGo tid rest fs

/-- The body of `rollback_renaming` for a single identity folder. -/
def rollback_renaming_folder (tid : Nat) (fs : List String) : List String :=
  rollbackGo tid (listImages fs) fs

theorem decDigitsGo_mem {fuel n : Nat} {c : Char} (h : c ∈ decDigitsGo fuel n) :
    ∃ d, d < 10 ∧ c = digitCharOf d := by
  induction fuel generalizing n with
  | zero => simp [decDigitsGo] at h
  | succ k ih =>
    simp only [decDigitsGo] at h
    by_cases hn : n < 10
    · rw [if_pos hn] at h
      simp at h
      exact ⟨n, hn, h⟩
    · rw [if_neg hn] at h
      rcases List.mem_cons.1 h with rfl | h'
      · exact ⟨n % 10, Nat.mod_lt _ (by omega), rfl⟩
      · exact ih h'

theorem digitCharOf_ne_underscore : ∀ d, d < 10 → digitCharOf d ≠ '_' := by decide

theorem digitCharOf_ne_dot : ∀ d, d < 10 → digitCharOf d ≠ '.' := by decide

theorem digitCharOf_inj : ∀ a, a < 10 → ∀ b, b < 10 → digitCharOf a = digitCharOf b → a = b := by
  decide

theorem natToDecimal_no_underscore (n : Nat) : ∀ c ∈ (natToDecimal n).data, c ≠ '_' := by
  intro c hc
  have hc' : c ∈ decDigitsGo (n + 1) n := by
    rw [← List.mem_reverse]
    exact hc
  rcases decDigitsGo_mem hc' with ⟨d, hd, rfl⟩
  exact digitCharOf_ne_underscore d hd

theorem natToDecimal_no_dot (n : Nat) : ∀ c ∈ (natToDecimal n).data, c ≠ '.' := by
  intro c hc
  have hc' : c ∈ decDigitsGo (n + 1) n := by
    rw [← List.mem_reverse]
    exact hc
  rcases decDigitsGo_mem hc' with ⟨d, hd, rfl⟩
  exact digitCharOf_ne_dot d hd

theorem decDigitsGo_ne_nil {fuel n : Nat} (h : n < fuel) : decDigitsGo fuel n ≠ [] := by
  cases fuel with
  | zero => omega
  | succ k =>
    simp only [decDigitsGo]
    by_cases hn : n < 10
    · rw [if_pos hn]
      simp
    · rw [if_neg hn]
      simp

theorem decDigitsGo_inj :
    ∀ (f1 n1 f2 n2 : Nat), n1 < f1 → n2 < f2 →
      decDigitsGo f1 n1 = decDigitsGo f2 n2 → n1 = n2 := by
  intro f1
  induction f1 with
  | zero => intro n1 f2 n2 h1; omega
  | succ k ih =>
    intro n1 f2 n2 h1 h2 heq
    cases f2 with
    | zero => omega
    | succ m =>
      simp only [decDigitsGo] at heq
      by_cases ha : n1 < 10
      · by_cases hb : n2 < 10
        · rw [if_pos ha, if_pos hb] at heq
          simp at heq
          exact digitCharOf_inj n1 ha n2 hb heq
        · rw [if_pos ha, if_neg hb] at heq
          have htl : ([] : List Char) = decDigitsGo m (n2 / 10) := by
            have := congrArg List.tail heq
            simpa using this
          exfalso
          have hlt : n2 / 10 < m := by
            have := Nat.div_lt_self (show 0 < n2 by omega) (show 1 < 10 by omega)
            omega
          exact decDigitsGo_ne_nil hlt htl.symm
      · by_cases hb : n2 < 10
        · rw [if_neg ha, if_pos hb] at heq
          have htl : decDigitsGo k (n1 / 10) = ([] : List Char) := by
            have := congrArg List.tail heq
            simpa using this
          exfalso
          have hlt : n1 / 10 < k := by
            have := Nat.div_lt_self (show 0 < n1 by omega) (show 1 < 10 by omega)
            omega
          exact decDigitsGo_ne_nil hlt htl
        · rw [if_neg ha, if_neg hb] at heq
          simp only [List.cons.injEq] at heq
          have hm := digitCharOf_inj _ (Nat.mod_lt _ (by omega)) _ (Nat.mod_lt _ (by omega))
            heq.1
          have hlt1 : n1 / 10 < k := by
            have := Nat.div_lt_self (show 0 < n1 by omega) (show 1 < 10 by omega)
            omega
          have hlt2 : n2 / 10 < m := by
            have := Nat.div_lt_self (show 0 < n2 by omega) (show 1 < 10 by omega)
            omega
          have hd := ih (n1 / 10) m (n2 / 10) hlt1 hlt2 heq.2
          omega

theorem natToDecimal_inj {m n : Nat} (h : natToDecimal m = natToDecimal n) : m = n := by
  have hd : (natToDecimal m).data = (natToDecimal n).data := by rw [h]
  simp only [natToDecimal] at hd
  have hrev : decDigitsGo (m + 1) m = decDigitsGo (n + 1) n := by
    have := congrArg List.reverse hd
    simpa using this
  exact decDigitsGo_inj (m + 1) m (n + 1) n (by omega) (by omega) hrev

theorem string_data_append (a b : String) : (a ++ b).data = a.data ++ b.data := rfl

theorem string_mk_data (s : String) : (⟨s.data⟩ : String) = s := by
  cases s
  rfl

theorem imageEncode_data (tid i : Nat) (f : String) :
    (imageEncode tid i f).data =
      (natToDecimal tid).data ++ '_' :: '-' :: '1' :: '_' ::
        ((natToDecimal i).data ++ '_' :: f.data) := by
  show (natToDecimal tid ++ "_-1_" ++ natToDecimal i ++ "_" ++ f).data = _
  simp only [string_data_append, List.append_assoc]
  rfl

theorem takeWhile_until_underscore :
    ∀ (l : List Char), (∀ c ∈ l, c ≠ '_') → ∀ (r : List Char),
      List.takeWhile (fun c => (c ≠ '_' : Bool)) (l ++ '_' :: r) = l := by
  intro l hl
  induction l with
  | nil => intro r; simp [List.takeWhile_cons]
  | cons c cs ih =>
    intro r
    have hc : c ≠ '_' := hl c (by simp)
    simp only [List.cons_append, List.takeWhile_cons, decide_eq_true_eq]
    rw [if_pos hc, ih (fun x hx => hl x (by simp [hx])) r]

theorem dropWhile_until_underscore :
    ∀ (l : List Char), (∀ c ∈ l, c ≠ '_') → ∀ (r : List Char),
      List.dropWhile (fun c => (c ≠ '_' : Bool)) (l ++ '_' :: r) = '_' :: r := by
  intro l hl
  induction l with
  | nil => intro r; simp [List.dropWhile_cons]
  | cons c cs ih =>
    intro r
    have hc : c ≠ '_' := hl c (by simp)
    simp only [List.cons_append, List.dropWhile_cons, decide_eq_true_eq]
    rw [if_pos hc, ih (fun x hx => hl x (by simp [hx])) r]

theorem splitU_step (k : Nat) (l r : List Char) (h : ∀ c ∈ l, c ≠ '_') :
    splitUnderscoreAux (k + 1) (l ++ '_' :: r) = l :: splitUnderscoreAux k r := by
  simp only [splitUnderscoreAux, takeWhile_until_underscore l h r,
    dropWhile_until_underscore l h r]

theorem pySplitU3_imageEncode (tid i : Nat) (f : String) :
    pySplitU3 (imageEncode tid i f) = [natToDecimal tid, "-1", natToDecimal i, f] := by
  unfold pySplitU3
  rw [imageEncode_data]
  rw [splitU_step 2 (natToDecimal tid).data
    ('-' :: '1' :: '_' :: ((natToDecimal i).data ++ '_' :: f.data))
    (natToDecimal_no_underscore tid)]
  have h2 := splitU_step 1 ['-', '1'] ((natToDecimal i).data ++ '_' :: f.data) (by decide)
  simp only [List.cons_append, List.nil_append] at h2
  rw [h2]
  rw [splitU_step 0 (natToDecimal i).data f.data (natToDecimal_no_underscore i)]
  simp only [splitUnderscoreAux, List.map]

theorem pyStartsWith_imageEncode (tid i : Nat) (f : String) :
    pyStartsWith (imageEncode tid i f) (idTagOf tid) = true := by
  unfold pyStartsWith
  apply (List.isPrefixOf_iff_prefix).2
  refine ⟨(natToDecimal i).data ++ '_' :: f.data, ?_⟩
  rw [imageEncode_data]
  have htag : (idTagOf tid).data = (natToDecimal tid).data ++ ['_', '-', '1', '_'] := rfl
  rw [htag]
  simp [List.append_assoc]

theorem takeWhile_append_of_stop (p : Char → Bool) :
    ∀ (l m : List Char), List.dropWhile p l ≠ [] →
      List.takeWhile p (l ++ m) = List.takeWhile p l ∧
      List.dropWhile p (l ++ m) = List.dropWhile p l ++ m := by
  intro l
  induction l with
  | nil => intro m h; simp at h
  | cons c cs ih =>
    intro m h
    by_cases hc : p c
    · have h' : List.dropWhile p cs ≠ [] := by
        simpa [List.dropWhile_cons, hc] using h
      constructor
      · simp [List.takeWhile_cons, hc, (ih m h').1]
      · simp [List.dropWhile_cons, hc, (ih m h').2]
    · constructor
      · simp [List.takeWhile_cons, hc]
      · simp [List.dropWhile_cons, hc]

theorem isRecognizedImage_suffix_ne {f : String} (h : isRecognizedImage f = true) :
    pySuffix f ≠ "" := by
  intro he
  rw [isRecognizedImage, he] at h
  exact absurd h (by decide)

theorem pySuffix_shift (pre : List Char) (f : String) (h : pySuffix f ≠ "") :
    pySuffix ⟨pre ++ f.data⟩ = pySuffix f := by
  have hrev : (⟨pre ++ f.data⟩ : String).data.reverse = f.data.reverse ++ pre.reverse := by
    simp
  cases hdrop : List.dropWhile (fun c => (c ≠ '.' : Bool)) f.data.reverse with
  | nil =>
    exfalso
    apply h
    simp only [pySuffix]
    rw [hdrop]
    rfl
  | cons d before =>
    have hne : List.dropWhile (fun c => (c ≠ '.' : Bool)) f.data.reverse ≠ [] := by
      rw [hdrop]
      simp
    have hta := (takeWhile_append_of_stop _ f.data.reverse pre.reverse hne).1
    have hdr := (takeWhile_append_of_stop _ f.data.reverse pre.reverse hne).2
    simp only [pySuffix] at h ⊢
    rw [hrev, hta, hdr, hdrop]
    rw [hdrop] at h
    simp only [List.cons_append, List.isEmpty_cons, List.tail_cons] at h ⊢
    simp only [Bool.false_eq_true, if_false] at h ⊢
    cases hae : (List.takeWhile (fun c => (c ≠ '.' : Bool)) f.data.reverse).isEmpty with
    | true =>
      rfl
    | false =>
      simp only [Bool.false_eq_true, if_false] at h ⊢
      by_cases hbe : before = []
      · subst hbe
        simp at h
      · have hbe2 : (before ++ pre.reverse).isEmpty = false := by
          cases before with
          | nil => exact absurd rfl hbe
          | cons x xs => rfl
        have hbe3 : before.isEmpty = false := by
          cases before with
          | nil => exact absurd rfl hbe
          | cons x xs => rfl
        simp only [hbe2, hbe3, Bool.false_eq_true, if_false]

theorem isRecognizedImage_imageEncode (tid i : Nat) (f : String)
    (h : isRecognizedImage f = true) :
    isRecognizedImage (imageEncode tid i f) = true := by
  have hdd : (imageEncode tid i f).data =
      ((natToDecimal tid).data ++ '_' :: '-' :: '1' :: '_' ::
        ((natToDecimal i).data ++ ['_'])) ++ f.data := by
    rw [imageEncode_data]
    simp [List.append_assoc]
  have hs : pySuffix (imageEncode tid i f) = pySuffix f := by
    rw [← string_mk_data (imageEncode tid i f), hdd]
    exact pySuffix_shift _ f (isRecognizedImage_suffix_ne h)
  unfold isRecognizedImage at h ⊢
  rw [hs]
  exact h

theorem imageEncode_pair_inj (tid : Nat) {p q : Nat × String}
    (h : imageEncode tid p.1 p.2 = imageEncode tid q.1 q.2) : p = q := by
  have hs := congrArg pySplitU3 h
  rw [pySplitU3_imageEncode, pySplitU3_imageEncode] at hs
  simp only [List.cons.injEq, and_true] at hs
  exact Prod.ext (natToDecimal_inj hs.2.2.1) hs.2.2.2

theorem imageEncode_not_in (tid i : Nat) (f g : String)
    (hg : pyStartsWith g (idTagOf tid) = false) : imageEncode tid i f ≠ g := by
  intro he
  rw [← he, pyStartsWith_imageEncode] at hg
  cases hg

theorem listImages_mem {fs : List String} {x : String} (h : x ∈ listImages fs) :
    x ∈ fs ∧ isRecognizedImage x = true := by
  have := (insSortBy_perm strLeb (fs.filter isRecognizedImage)).mem_iff.1 h
  exact ⟨(List.mem_filter.1 this).1, (List.mem_filter.1 this).2⟩

theorem listImages_perm {fs : List String} (hall : ∀ f ∈ fs, isRecognizedImage f = true) :
    List.Perm fs (listImages fs) := by
  unfold listImages
  rw [List.filter_eq_self.2 hall]
  exact (insSortBy_perm strLeb fs).symm

theorem applyRenames_perm :
    ∀ (ops : List (String × String)) (fs other : List String),
      List.Perm fs (ops.map Prod.fst ++ other) →
      (ops.map Prod.snd).Nodup →
      (∀ d ∈ ops.map Prod.snd, d ∉ ops.map Prod.fst ∧ d ∉ other) →
      List.Perm (applyRenames ops fs) (ops.map Prod.snd ++ other) := by
  intro ops
  induction ops with
  | nil =>
    intro fs other hp _ _
    simpa [applyRenames] using hp
  | cons op rest ih =>
    intro fs other hp hnd hd
    simp only [List.map_cons] at hp hnd hd ⊢
    have hdop := hd op.2 (List.mem_cons_self _ _)
    have hsrc : op.1 ∈ fs := hp.mem_iff.2 (by simp)
    have hdst : op.2 ∉ fs := by
      intro hcon
      rcases List.mem_append.1 (hp.mem_iff.1 hcon) with hmem | hmem
      · exact hdop.1 hmem
      · exact hdop.2 hmem
    simp only [applyRenames]
    have hren : fsRename fs op.1 op.2 = fs.erase op.1 ++ [op.2] := by
      unfold fsRename
      rw [if_pos ⟨hsrc, hdst⟩]
    rw [hren]
    have he : List.Perm (fs.erase op.1) (rest.map Prod.fst ++ other) := by
      have hce := List.perm_cons_erase hsrc
      exact (hce.symm.trans hp).cons_inv
    have hp' : List.Perm (fs.erase op.1 ++ [op.2])
        (rest.map Prod.fst ++ (other ++ [op.2])) := by
      have h1 := he.append_right [op.2]
      rwa [List.append_assoc] at h1
    have hnd' : (rest.map Prod.snd).Nodup := (List.nodup_cons.1 hnd).2
    have hd' : ∀ d ∈ rest.map Prod.snd, d ∉ rest.map Prod.fst ∧ d ∉ other ++ [op.2] := by
      intro d hdm
      have hdd := hd d (List.mem_cons_of_mem _ hdm)
      refine ⟨fun hcon => hdd.1 (List.mem_cons_of_mem _ hcon), ?_⟩
      intro hcon
      rcases List.mem_append.1 hcon with hmem | hmem
      · exact hdd.2 hmem
      · have hde : d = op.2 := by simpa using hmem
        exact (List.nodup_cons.1 hnd).1 (hde ▸ hdm)
    have hfin := ih _ _ hp' hnd' hd'
    refine hfin.trans ?_
    have h2 : rest.map Prod.snd ++ (other ++ [op.2]) =
        (rest.map Prod.snd ++ other) ++ [op.2] := by
      rw [List.append_assoc]
    rw [h2]
    exact List.perm_append_singleton _ _

theorem renameOps_map_fst (tid : Nat) (files : List String) :
    (renameOps tid files).map Prod.fst = files := by
  simp only [renameOps, List.map_map]
  have hc : (Prod.fst ∘ fun p : Nat × String => (p.2, imageEncode tid p.1 p.2)) =
      Prod.snd := rfl
  rw [hc, List.enum_map_snd]

theorem renameOps_map_snd (tid : Nat) (files : List String) :
    (renameOps tid files).map Prod.snd =
      files.enum.map (fun p => imageEncode tid p.1 p.2) := by
  simp only [renameOps, List.map_map]
  rfl

theorem enum_nodup (l : List α) : l.enum.Nodup := by
  apply List.Nodup.of_map Prod.fst
  rw [List.enum_map_fst]
  exact List.nodup_range _

theorem encodes_nodup (tid : Nat) (files : List String) :
    (files.enum.map (fun p => imageEncode tid p.1 p.2)).Nodup := by
  apply List.Nodup.map_on _ (enum_nodup files)
  intro x _ y _ hxy
  exact imageEncode_pair_inj tid hxy

theorem rename_folder_perm (tid : Nat) (fs : List String)
    (hall : ∀ f ∈ fs, isRecognizedImage f = true)
    (htag : ∀ f ∈ fs, pyStartsWith f (idTagOf tid) = false) :
    List.Perm (rename_turtle_images_folder tid fs)
      ((listImages fs).enum.map (fun p => imageEncode tid p.1 p.2)) := by
  unfold rename_turtle_images_folder
  have hperm0 : List.Perm fs ((renameOps tid (listImages fs)).map Prod.fst ++ []) := by
    rw [renameOps_map_fst, List.append_nil]
    exact listImages_perm hall
  have hnd : ((renameOps tid (listImages fs)).map Prod.snd).Nodup := by
    rw [renameOps_map_snd]
    exact encodes_nodup tid _
  have hcond : ∀ d ∈ (renameOps tid (listImages fs)).map Prod.snd,
      d ∉ (renameOps tid (listImages fs)).map Prod.fst ∧ d ∉ ([] : List String) := by
    intro d hdm
    rw [renameOps_map_snd] at hdm
    rcases List.mem_map.1 hdm with ⟨p, _, rfl⟩
    refine ⟨?_, by simp⟩
    rw [renameOps_map_fst]
    intro hcon
    exact imageEncode_not_in tid p.1 p.2 _
      (htag _ (listImages_mem hcon).1) rfl
  have happ := applyRenames_perm (renameOps tid (listImages fs)) fs [] hperm0 hnd hcond
  rw [renameOps_map_snd, List.append_nil] at happ
  exact happ

theorem rollbackGo_eq_applyRenames (tid : Nat) :
    ∀ (L fs : List String),
      (∀ e ∈ L, pyStartsWith e (idTagOf tid) = true ∧ 4 ≤ (pySplitU3 e).length) →
      rollbackGo tid L fs =
        applyRenames (L.map (fun e => (e, ((pySplitU3 e).get? 3).getD ""))) fs := by
  intro L
  induction L with
  | nil => intro fs _; rfl
  | cons e rest ih =>
    intro fs h
    have he := h e (List.mem_cons_self _ _)
    simp only [rollbackGo, he.1, eq_self_iff_true, if_true, List.map_cons, applyRenames]
    rw [if_pos he.2]
    exact ih _ (fun x hx => h x (List.mem_cons_of_mem _ hx))

theorem decode_imageEncode (tid i : Nat) (f : String) :
    ((pySplitU3 (imageEncode tid i f)).get? 3).getD "" = f := by
  rw [pySplitU3_imageEncode]
  rfl

/-- C6 (amended): for an identity folder of images with unique names, none of
which already carries the folder's `{identity}_-1_` tag as a prefix, renaming
with the per-identity image renamer and then applying the rollback restores
exactly the original set of filenames.  The no-pre-tagged-name proviso is
forced: an original name that itself matches the encoded pattern can collide
with another file's restored name during rollback, which the counterexample
exhibits. -/
theorem rename_rollback_roundtrip (tid : Nat) (fs : List String)
    (_hne : fs ≠ []) (hnd : fs.Nodup)
    (hall : ∀ f ∈ fs, isRecognizedImage f = true)
    (htag : ∀ f ∈ fs, pyStartsWith f (idTagOf tid) = false) :
    (rollback_renaming_folder tid (rename_turtle_images_folder tid fs)).toFinset =
      fs.toFinset := by
  have hren := rename_folder_perm tid fs hall htag
  set files := listImages fs with hfiles
  set E := files.enum.map (fun p => imageEncode tid p.1 p.2) with hE
  set fs2 := rename_turtle_images_folder tid fs with hfs2
  have hall2 : ∀ x ∈ fs2, isRecognizedImage x = true := by
    intro x hx
    rcases List.mem_map.1 (hren.mem_iff.1 hx) with ⟨p, hp, he⟩
    rw [← he]
    apply isRecognizedImage_imageEncode
    have hpf : p.2 ∈ files := by
      rw [← List.enum_map_snd files]
      exact List.mem_map_of_mem Prod.snd hp
    exact (listImages_mem hpf).2
  have hL : List.Perm (listImages fs2) fs2 := (listImages_perm hall2).symm
  have hLE : List.Perm (listImages fs2) E := hL.trans hren
  have hguard : ∀ e ∈ listImages fs2,
      pyStartsWith e (idTagOf tid) = true ∧ 4 ≤ (pySplitU3 e).length := by
    intro e hle
    rcases List.mem_map.1 (hLE.mem_iff.1 hle) with ⟨p, _, he⟩
    rw [← he]
    refine ⟨pyStartsWith_imageEncode tid p.1 p.2, ?_⟩
    rw [pySplitU3_imageEncode]
    simp
  unfold rollback_renaming_folder
  rw [rollbackGo_eq_applyRenames tid (listImages fs2) fs2 hguard]
  set ops2 := (listImages fs2).map
    (fun e => (e, ((pySplitU3 e).get? 3).getD "")) with hops2
  have hsrc2 : ops2.map Prod.fst = listImages fs2 := by
    rw [hops2, List.map_map]
    have hc : (Prod.fst ∘ fun e : String => (e, ((pySplitU3 e).get? 3).getD "")) = id := rfl
    rw [hc, List.map_id]
  have hEdec : E.map (fun e => ((pySplitU3 e).get? 3).getD "") = files := by
    rw [hE, List.map_map]
    have hc : ((fun e => ((pySplitU3 e).get? 3).getD "") ∘
        fun p : Nat × String => imageEncode tid p.1 p.2) = Prod.snd := by
      funext p
      exact decode_imageEncode tid p.1 p.2
    rw [hc, List.enum_map_snd]
  have hdst2 : List.Perm (ops2.map Prod.snd) files := by
    rw [hops2, List.map_map]
    have hc : (Prod.snd ∘ fun e : String => (e, ((pySplitU3 e).get? 3).getD "")) =
        fun e => ((pySplitU3 e).get? 3).getD "" := rfl
    rw [hc]
    have hmapE := hLE.map (fun e => ((pySplitU3 e).get? 3).getD "")
    rw [hEdec] at hmapE
    exact hmapE
  have hfilesnd : files.Nodup := (listImages_perm hall).nodup_iff.1 hnd
  have hdnd : (ops2.map Prod.snd).Nodup := hdst2.nodup_iff.2 hfilesnd
  have hcond : ∀ d ∈ ops2.map Prod.snd, d ∉ ops2.map Prod.fst ∧ d ∉ ([] : List String) := by
    intro d hdm
    have hdf : d ∈ files := hdst2.mem_iff.1 hdm
    have hdfs : d ∈ fs := (listImages_mem hdf).1
    refine ⟨?_, by simp⟩
    rw [hsrc2]
    intro hcon
    have hg := (hguard d hcon).1
    rw [htag d hdfs] at hg
    cases hg
  have hp0 : List.Perm fs2 (ops2.map Prod.fst ++ []) := by
    rw [hsrc2, List.append_nil]
    exact hL.symm
  have happ := applyRenames_perm ops2 fs2 [] hp0 hdnd hcond
  rw [List.append_nil] at happ
  have hfin : List.Perm (applyRenames ops2 fs2) fs :=
    happ.trans (hdst2.trans (listImages_perm hall).symm)
  exact List.toFinset_eq_of_perm _ _ hfin

theorem rename_rollback_roundtrip_witness :
    ((["b.JPG", "a.JPG"] : List String) ≠ [] ∧
      (["b.JPG", "a.JPG"] : List String).Nodup ∧
      (∀ f ∈ (["b.JPG", "a.JPG"] : List String), isRecognizedImage f = true) ∧
      (∀ f ∈ (["b.JPG", "a.JPG"] : List String),
        pyStartsWith f (idTagOf 0) = false)) ∧
    (rollback_renaming_folder 0
        (rename_turtle_images_folder 0 ["b.JPG", "a.JPG"])).toFinset =
      (["b.JPG", "a.JPG"] : List String).toFinset :=
  ⟨⟨by decide, by decide, by decide, by decide⟩,
    rename_rollback_roundtrip 0 ["b.JPG", "a.JPG"] (by decide) (by decide)
      (by decide) (by decide)⟩

/-- C6 counterexample: the folder `0` holds the two uniquely-named images
`0_-1_1_a.JPG` and `a.JPG`.  The renamer encodes them to
`0_-1_0_0_-1_1_a.JPG` and `0_-1_1_a.JPG`; during rollback the first file's
restored name `0_-1_1_a.JPG` collides with the second file's current name, so
that rename fails and the final name set differs from the original one — the
round trip does not restore the original filenames for every folder of
uniquely-named images. -/
theorem rename_rollback_counterexample :
    (["0_-1_1_a.JPG", "a.JPG"] : List String).Nodup ∧
    (rollback_renaming_folder 0
        (rename_turtle_images_folder 0 ["0_-1_1_a.JPG", "a.JPG"])).toFinset ≠
      (["0_-1_1_a.JPG", "a.JPG"] : List String).toFinset := by
  constructor
  · decide
  · decide
